import Mathlib

/-!
Verification development for the rotation-YAML IntelliSense extension
(`vs_simia_yaml`): a shallow embedding of its expression-recognition and
validation engine, translated from `src/completionProvider.ts`,
`src/hoverProvider.ts` and the diagnostic provider, together with proofs
about the embedded definitions.

Strings are modelled as Lean `String`/`List Char`; the JavaScript regular
expressions used by the source are embedded as explicit character-list
scanners with the same matching semantics.  `String.prototype.toLowerCase`
is modelled on the ASCII range (the only range the DSL's identifiers use).
-/

set_option maxHeartbeats 1000000
set_option maxRecDepth 10000

/-! ## Character classes (JS regex classes `\w`, `\s`, `[a-z0-9]`, `\d`) -/

/-- `[a-z]` as a character test (by code point). -/
def isLowerAZ (c : Char) : Bool := 97 ≤ c.toNat && c.toNat ≤ 122

/-- `[A-Z]` as a character test. -/
def isUpperAZ (c : Char) : Bool := 65 ≤ c.toNat && c.toNat ≤ 90

/-- `\d`, i.e. `[0-9]`. -/
def isDigitC (c : Char) : Bool := 48 ≤ c.toNat && c.toNat ≤ 57

/-- `\w`, i.e. `[A-Za-z0-9_]`. -/
def isWordC (c : Char) : Bool :=
  isLowerAZ c || isUpperAZ c || isDigitC c || c.toNat == 95

/-- `[a-z0-9]`: the characters the name normalizer keeps. -/
def isLowerAlnum (c : Char) : Bool := isLowerAZ c || isDigitC c

/-- `\s` (ASCII part): space, tab, LF, VT, FF, CR. -/
def isWS (c : Char) : Bool :=
  c.toNat == 32 || c.toNat == 9 || c.toNat == 10 ||
  c.toNat == 11 || c.toNat == 12 || c.toNat == 13

/-- `[a-z_]`: the root-level-key identifier class of the section scanner. -/
def isLowerUnd (c : Char) : Bool := isLowerAZ c || c.toNat == 95

/-- The underscore character. -/
def usC : Char := Char.ofNat 95

/-- The ASCII apostrophe (both characters in the source's `/['']/` class). -/
def aposC : Char := Char.ofNat 39

/-! ## `SpellDatabase.normalizeName` (completionProvider.ts lines 1074-1081)

```
normalizeName(name: string): string {
    return name
        .toLowerCase()
        .replace(/['']/g, '')           // Remove apostrophes
        .replace(/[^a-z0-9]+/g, '_')    // Replace non-alphanumeric with underscore
        .replace(/^_|_$/g, '')          // Trim leading/trailing underscores
        .replace(/_+/g, '_');           // Collapse multiple underscores
}
```
-/

/-- ASCII model of `String.prototype.toLowerCase` on one character. -/
def jsLowerChar (c : Char) : Char :=
  if 65 ≤ c.toNat ∧ c.toNat ≤ 90 then Char.ofNat (c.toNat + 32) else c

/-- `.toLowerCase()`. -/
def jsLower (s : List Char) : List Char := s.map jsLowerChar

/-- `.replace(/['']/g, '')`: both characters of the class are the ASCII
apostrophe in the source file, so this deletes apostrophes. -/
def removeApos (s : List Char) : List Char := s.filter (fun c => !(c == aposC))

mutual

/-- `.replace(/[^a-z0-9]+/g, '_')`: every maximal run of characters outside
`[a-z0-9]` becomes a single underscore. -/
def replaceRuns : List Char → List Char
  | [] => []
  | c :: cs =>
      if isLowerAlnum c then c :: replaceRuns cs else usC :: skipRun cs

/-- Consume the rest of a non-alphanumeric run (helper of `replaceRuns`). -/
def skipRun : List Char → List Char
  | [] => []
  | c :: cs =>
      if isLowerAlnum c then c :: replaceRuns cs else skipRun cs

end

/-- `.replace(/^_|_$/g, '')`, leading half: the regex removes at most one
underscore at position 0. -/
def dropLeadUS : List Char → List Char
  | [] => []
  | c :: t => if c == usC then t else c :: t

/-- `.replace(/^_|_$/g, '')`, trailing half: at most one underscore at the
last position is removed. -/
def dropTrailUS : List Char → List Char
  | [] => []
  | [c] => if c == usC then [] else [c]
  | c :: d :: t => c :: dropTrailUS (d :: t)

/-- `.replace(/^_|_$/g, '')`. -/
def trimUS (s : List Char) : List Char := dropTrailUS (dropLeadUS s)

mutual

/-- `.replace(/_+/g, '_')`: collapse each run of underscores to one. -/
def collapseUS : List Char → List Char
  | [] => []
  | c :: cs =>
      if c == usC then usC :: skipUS cs else c :: collapseUS cs

/-- Consume the rest of an underscore run (helper of `collapseUS`). -/
def skipUS : List Char → List Char
  | [] => []
  | c :: cs => if c == usC then skipUS cs else c :: collapseUS cs

end

/-- `SpellDatabase.normalizeName`. -/
def normalizeName (name : String) : String :=
  ⟨collapseUS (trimUS (replaceRuns (removeApos (jsLower name.data))))⟩

/-! ## Normalized-form invariants and idempotence of `normalizeName` -/

theorem char_eq_of_toNat_eq {c d : Char} (h : c.toNat = d.toNat) : c = d := by
  cases c with | mk v hv => cases d with | mk w hw =>
    simp only [Char.toNat] at h
    congr 1
    exact UInt32.toNat.inj h

/-- Is the character an underscore? -/
def isUS (c : Char) : Bool := c.toNat == 95

/-- Characters a normalized name may contain. -/
def goodChar (c : Char) : Bool := isLowerAlnum c || isUS c

/-- All characters of the list are `goodChar`. -/
def goodStr (l : List Char) : Bool := l.all goodChar

/-- No two adjacent underscores. -/
def noDbl : List Char → Bool
  | c :: d :: t => !(isUS c && isUS d) && noDbl (d :: t)
  | _ => true

/-- The first character, if any, is not an underscore. -/
def headNotUS : List Char → Bool
  | [] => true
  | c :: _ => !(isUS c)

/-- The last character, if any, is not an underscore. -/
def lastNotUS : List Char → Bool
  | [] => true
  | [c] => !(isUS c)
  | _ :: d :: t => lastNotUS (d :: t)

/-- Shape of the strings `normalizeName` produces. -/
def normedForm (l : List Char) : Bool :=
  goodStr l && noDbl l && headNotUS l && lastNotUS l

theorem isUS_usC : isUS usC = true := by decide

theorem not_isUS_of_isLowerAlnum {c : Char} (h : isLowerAlnum c = true) :
    isUS c = false := by
  simp only [isLowerAlnum, isLowerAZ, isDigitC, Bool.or_eq_true, Bool.and_eq_true,
    decide_eq_true_eq] at h
  simp only [isUS, beq_eq_false_iff_ne, ne_eq]
  omega

theorem eq_usC_of_isUS {c : Char} (h : isUS c = true) : c = usC := by
  simp only [isUS, beq_iff_eq] at h
  exact char_eq_of_toNat_eq (by rw [h]; decide)

theorem noDbl_cons (c : Char) (l : List Char) :
    noDbl (c :: l) = ((headNotUS l || !(isUS c)) && noDbl l) := by
  cases l with
  | nil => simp [noDbl, headNotUS]
  | cons d t =>
    simp only [noDbl, headNotUS]
    cases isUS c <;> cases isUS d <;> simp

theorem goodStr_cons (c : Char) (l : List Char) :
    goodStr (c :: l) = (goodChar c && goodStr l) := by
  simp [goodStr, List.all_cons]

theorem beq_usC_eq (c : Char) : (c == usC) = isUS c := by
  by_cases h : c = usC
  · subst h; decide
  · have hn : isUS c = false := by
      cases hu : isUS c
      · rfl
      · exact absurd (eq_usC_of_isUS hu) h
    simp [h, hn]

/-- `replaceRuns`/`skipRun` emit only `[a-z0-9_]` characters. -/
theorem goodStr_replaceRuns_aux :
    ∀ n l, l.length ≤ n →
      goodStr (replaceRuns l) = true ∧ goodStr (skipRun l) = true := by
  intro n
  induction n with
  | zero =>
    intro l h
    have : l = [] := List.eq_nil_of_length_eq_zero (Nat.le_zero.mp h)
    subst this
    exact ⟨rfl, rfl⟩
  | succ n ih =>
    intro l h
    cases l with
    | nil => exact ⟨rfl, rfl⟩
    | cons c cs =>
      have hcs : cs.length ≤ n := by simp at h; omega
      constructor
      · rw [replaceRuns]
        by_cases ha : isLowerAlnum c = true
        · simp only [ha, if_true, goodStr_cons, Bool.and_eq_true]
          exact ⟨by simp [goodChar, ha], (ih cs hcs).1⟩
        · rw [if_neg ha, goodStr_cons]
          simp [goodChar, isUS_usC, (ih cs hcs).2]
      · rw [skipRun]
        by_cases ha : isLowerAlnum c = true
        · simp only [ha, if_true, goodStr_cons, Bool.and_eq_true]
          exact ⟨by simp [goodChar, ha], (ih cs hcs).1⟩
        · simp only [ha, if_false]
          exact (ih cs hcs).2

theorem goodStr_replaceRuns (l : List Char) : goodStr (replaceRuns l) = true :=
  (goodStr_replaceRuns_aux l.length l le_rfl).1

/-- `replaceRuns` never emits two adjacent underscores, and `skipRun` output
never starts with one. -/
theorem noDbl_replaceRuns_aux :
    ∀ n l, l.length ≤ n →
      noDbl (replaceRuns l) = true ∧
      (noDbl (skipRun l) = true ∧ headNotUS (skipRun l) = true) := by
  intro n
  induction n with
  | zero =>
    intro l h
    have : l = [] := List.eq_nil_of_length_eq_zero (Nat.le_zero.mp h)
    subst this
    exact ⟨by rfl, by rfl, by rfl⟩
  | succ n ih =>
    intro l h
    cases l with
    | nil => exact ⟨by rfl, by rfl, by rfl⟩
    | cons c cs =>
      have hcs : cs.length ≤ n := by simp at h; omega
      refine ⟨?_, ?_, ?_⟩
      · rw [replaceRuns]
        by_cases ha : isLowerAlnum c = true
        · rw [if_pos ha, noDbl_cons]
          simp [not_isUS_of_isLowerAlnum ha, (ih cs hcs).1]
        · rw [if_neg ha, noDbl_cons]
          simp [(ih cs hcs).2.1, (ih cs hcs).2.2]
      · rw [skipRun]
        by_cases ha : isLowerAlnum c = true
        · rw [if_pos ha, noDbl_cons]
          simp [not_isUS_of_isLowerAlnum ha, (ih cs hcs).1]
        · rw [if_neg ha]
          exact (ih cs hcs).2.1
      · rw [skipRun]
        by_cases ha : isLowerAlnum c = true
        · rw [if_pos ha]
          simp [headNotUS, not_isUS_of_isLowerAlnum ha]
        · rw [if_neg ha]
          exact (ih cs hcs).2.2

theorem noDbl_replaceRuns (l : List Char) : noDbl (replaceRuns l) = true :=
  (noDbl_replaceRuns_aux l.length l le_rfl).1

theorem noDbl_tail {c : Char} {l : List Char} (h : noDbl (c :: l) = true) :
    noDbl l = true := by
  rw [noDbl_cons, Bool.and_eq_true] at h
  exact h.2

theorem goodStr_dropLeadUS {l : List Char} (h : goodStr l = true) :
    goodStr (dropLeadUS l) = true := by
  cases l with
  | nil => rfl
  | cons c t =>
    rw [dropLeadUS]
    rw [goodStr_cons, Bool.and_eq_true] at h
    by_cases hc : (c == usC) = true
    · rw [if_pos hc]; exact h.2
    · rw [if_neg hc, goodStr_cons, Bool.and_eq_true]; exact h

theorem noDbl_dropLeadUS {l : List Char} (h : noDbl l = true) :
    noDbl (dropLeadUS l) = true := by
  cases l with
  | nil => rfl
  | cons c t =>
    rw [dropLeadUS]
    by_cases hc : (c == usC) = true
    · rw [if_pos hc]; exact noDbl_tail h
    · rw [if_neg hc]; exact h

theorem headNotUS_dropLeadUS {l : List Char} (h : noDbl l = true) :
    headNotUS (dropLeadUS l) = true := by
  cases l with
  | nil => rfl
  | cons c t =>
    rw [dropLeadUS]
    by_cases hc : (c == usC) = true
    · rw [if_pos hc]
      rw [noDbl_cons, Bool.and_eq_true] at h
      rcases Bool.or_eq_true_iff.mp h.1 with h1 | h1
      · exact h1
      · rw [beq_usC_eq] at hc
        rw [hc] at h1
        cases h1
    · rw [if_neg hc, beq_usC_eq] at *
      cases hu : isUS c
      · simp [headNotUS, hu]
      · exact absurd hu hc

theorem goodStr_dropTrailUS {l : List Char} (h : goodStr l = true) :
    goodStr (dropTrailUS l) = true := by
  induction l with
  | nil => rfl
  | cons c t ih =>
    rw [goodStr_cons, Bool.and_eq_true] at h
    cases t with
    | nil =>
      rw [dropTrailUS]
      by_cases hc : (c == usC) = true
      · rw [if_pos hc]; rfl
      · rw [if_neg hc, goodStr_cons, Bool.and_eq_true]; exact ⟨h.1, rfl⟩
    | cons d t' =>
      rw [dropTrailUS, goodStr_cons, Bool.and_eq_true]
      exact ⟨h.1, ih h.2⟩

theorem headNotUS_dropTrailUS {l : List Char} (h : headNotUS l = true) :
    headNotUS (dropTrailUS l) = true := by
  cases l with
  | nil => rfl
  | cons c t =>
    cases t with
    | nil =>
      rw [dropTrailUS]
      by_cases hc : (c == usC) = true
      · rw [if_pos hc]; rfl
      · rw [if_neg hc]; exact h
    | cons d t' => rw [dropTrailUS]; exact h

theorem noDbl_dropTrailUS {l : List Char} (h : noDbl l = true) :
    noDbl (dropTrailUS l) = true := by
  induction l with
  | nil => rfl
  | cons c t ih =>
    cases t with
    | nil =>
      rw [dropTrailUS]
      by_cases hc : (c == usC) = true
      · rw [if_pos hc]; rfl
      · rw [if_neg hc]; rfl
    | cons d t' =>
      rw [dropTrailUS, noDbl_cons, Bool.and_eq_true]
      have hdt := noDbl_tail h
      refine ⟨?_, ih hdt⟩
      rw [noDbl_cons, Bool.and_eq_true] at h
      rcases Bool.or_eq_true_iff.mp h.1 with h1 | h1
      · rw [Bool.or_eq_true_iff]
        left
        exact headNotUS_dropTrailUS h1
      · rw [Bool.or_eq_true_iff]; right; exact h1

theorem lastNotUS_dropTrailUS {l : List Char} (h : noDbl l = true) :
    lastNotUS (dropTrailUS l) = true := by
  induction l with
  | nil => rfl
  | cons c t ih =>
    cases t with
    | nil =>
      rw [dropTrailUS]
      by_cases hc : (c == usC) = true
      · rw [if_pos hc]; rfl
      · rw [if_neg hc, beq_usC_eq] at *
        cases hu : isUS c
        · simp [lastNotUS, hu]
        · exact absurd hu hc
    | cons d t' =>
      have hdt := noDbl_tail h
      rw [dropTrailUS]
      have ht' := ih hdt
      -- `lastNotUS (c :: X)` where `X = dropTrailUS (d :: t')`
      cases hX : dropTrailUS (d :: t') with
      | nil =>
        -- `dropTrailUS (d :: t')` is empty only when `t' = []` and `d` is `_`;
        -- then `noDbl (c :: d :: t')` forces `c` not `_`.
        cases t' with
        | nil =>
          rw [dropTrailUS] at hX
          by_cases hd : (d == usC) = true
          · rw [noDbl_cons, Bool.and_eq_true] at h
            rcases Bool.or_eq_true_iff.mp h.1 with h1 | h1
            · rw [beq_usC_eq] at hd
              simp [headNotUS, hd] at h1
            · simp [lastNotUS, h1]
          · rw [if_neg hd] at hX
            cases hX
        | cons e t'' =>
          rw [dropTrailUS] at hX
          cases hX
      | cons x xs =>
        rw [hX] at ht'
        simpa [lastNotUS] using ht'

/-- `collapseUS` (and `skipUS`, given a non-underscore head) is the identity
on strings with no doubled underscore. -/
theorem collapseUS_id_aux :
    ∀ n l, l.length ≤ n →
      (noDbl l = true → collapseUS l = l) ∧
      (noDbl l = true → headNotUS l = true → skipUS l = l) := by
  intro n
  induction n with
  | zero =>
    intro l h
    have : l = [] := List.eq_nil_of_length_eq_zero (Nat.le_zero.mp h)
    subst this
    exact ⟨fun _ => rfl, fun _ _ => rfl⟩
  | succ n ih =>
    intro l h
    cases l with
    | nil => exact ⟨fun _ => rfl, fun _ _ => rfl⟩
    | cons c cs =>
      have hcs : cs.length ≤ n := by simp at h; omega
      constructor
      · intro hnd
        rw [collapseUS]
        by_cases hc : (c == usC) = true
        · rw [if_pos hc]
          rw [noDbl_cons, Bool.and_eq_true] at hnd
          have hhead : headNotUS cs = true := by
            rcases Bool.or_eq_true_iff.mp hnd.1 with h1 | h1
            · exact h1
            · rw [beq_usC_eq] at hc
              rw [hc] at h1
              cases h1
          rw [(ih cs hcs).2 hnd.2 hhead]
          rw [beq_usC_eq] at hc
          rw [eq_usC_of_isUS hc]
        · rw [if_neg hc, (ih cs hcs).1 (noDbl_tail hnd)]
      · intro hnd hhd
        rw [skipUS]
        have hc : (c == usC) = false := by
          rw [beq_usC_eq]
          rw [headNotUS] at hhd
          cases hu : isUS c
          · rfl
          · rw [hu] at hhd; cases hhd
        rw [if_neg (by simp [hc]), (ih cs hcs).1 (noDbl_tail hnd)]

theorem collapseUS_id {l : List Char} (h : noDbl l = true) : collapseUS l = l :=
  (collapseUS_id_aux l.length l le_rfl).1 h

/-- `replaceRuns` (and `skipRun`, given a non-underscore head) is the identity
on `[a-z0-9_]` strings with no doubled underscore. -/
theorem replaceRuns_id_aux :
    ∀ n l, l.length ≤ n →
      (goodStr l = true → noDbl l = true → replaceRuns l = l) ∧
      (goodStr l = true → noDbl l = true → headNotUS l = true → skipRun l = l) := by
  intro n
  induction n with
  | zero =>
    intro l h
    have : l = [] := List.eq_nil_of_length_eq_zero (Nat.le_zero.mp h)
    subst this
    exact ⟨fun _ _ => rfl, fun _ _ _ => rfl⟩
  | succ n ih =>
    intro l h
    cases l with
    | nil => exact ⟨fun _ _ => rfl, fun _ _ _ => rfl⟩
    | cons c cs =>
      have hcs : cs.length ≤ n := by simp at h; omega
      constructor
      · intro hg hnd
        rw [goodStr_cons, Bool.and_eq_true] at hg
        rw [replaceRuns]
        by_cases ha : isLowerAlnum c = true
        · rw [if_pos ha, (ih cs hcs).1 hg.2 (noDbl_tail hnd)]
        · -- `c` is good but not alphanumeric, so it is the underscore
          have hus : isUS c = true := by
            rcases Bool.or_eq_true_iff.mp hg.1 with h1 | h1
            · exact absurd h1 ha
            · exact h1
          rw [if_neg ha]
          rw [noDbl_cons, Bool.and_eq_true] at hnd
          have hhead : headNotUS cs = true := by
            rcases Bool.or_eq_true_iff.mp hnd.1 with h1 | h1
            · exact h1
            · rw [hus] at h1; cases h1
          rw [(ih cs hcs).2 hg.2 hnd.2 hhead, eq_usC_of_isUS hus]
      · intro hg hnd hhd
        rw [goodStr_cons, Bool.and_eq_true] at hg
        rw [skipRun]
        have ha : isLowerAlnum c = true := by
          rcases Bool.or_eq_true_iff.mp hg.1 with h1 | h1
          · exact h1
          · rw [headNotUS, h1] at hhd; cases hhd
        rw [if_pos ha, (ih cs hcs).1 hg.2 (noDbl_tail hnd)]

theorem replaceRuns_id {l : List Char} (hg : goodStr l = true)
    (hnd : noDbl l = true) : replaceRuns l = l :=
  (replaceRuns_id_aux l.length l le_rfl).1 hg hnd

theorem jsLower_id {l : List Char} (h : goodStr l = true) : jsLower l = l := by
  induction l with
  | nil => rfl
  | cons c t ih =>
    rw [goodStr_cons, Bool.and_eq_true] at h
    have hc : jsLowerChar c = c := by
      rw [jsLowerChar, if_neg]
      have := h.1
      simp only [goodChar, isLowerAlnum, isLowerAZ, isDigitC, isUS, Bool.or_eq_true,
        Bool.and_eq_true, decide_eq_true_eq, beq_iff_eq] at this
      omega
    rw [jsLower, List.map_cons]
    rw [jsLower] at ih
    rw [ih h.2, hc]

theorem removeApos_id {l : List Char} (h : goodStr l = true) : removeApos l = l := by
  induction l with
  | nil => rfl
  | cons c t ih =>
    rw [goodStr_cons, Bool.and_eq_true] at h
    have hc : (c == aposC) = false := by
      have := h.1
      simp only [goodChar, isLowerAlnum, isLowerAZ, isDigitC, isUS, Bool.or_eq_true,
        Bool.and_eq_true, decide_eq_true_eq, beq_iff_eq] at this
      have hne : c.toNat ≠ 39 := by omega
      cases he : (c == aposC)
      · rfl
      · exact absurd (congrArg Char.toNat (eq_of_beq he)) (by simpa using hne)
    rw [removeApos, List.filter_cons]
    simp only [hc, Bool.not_false, if_true]
    rw [removeApos] at ih
    rw [ih h.2]

theorem dropLeadUS_id {l : List Char} (h : headNotUS l = true) :
    dropLeadUS l = l := by
  cases l with
  | nil => rfl
  | cons c t =>
    rw [headNotUS] at h
    rw [dropLeadUS, if_neg]
    rw [beq_usC_eq]
    cases hu : isUS c
    · simp
    · rw [hu] at h; cases h

theorem dropTrailUS_id {l : List Char} (h : lastNotUS l = true) :
    dropTrailUS l = l := by
  induction l with
  | nil => rfl
  | cons c t ih =>
    cases t with
    | nil =>
      rw [lastNotUS] at h
      rw [dropTrailUS, if_neg]
      rw [beq_usC_eq]
      cases hu : isUS c
      · simp
      · rw [hu] at h; cases h
    | cons d t' =>
      rw [lastNotUS] at h
      rw [dropTrailUS, ih h]

/-- Every output of `normalizeName` is in normalized form: only `[a-z0-9_]`
characters, no doubled underscore, no leading or trailing underscore. -/
theorem normedForm_normalizeName (x : String) :
    normedForm (normalizeName x).data = true := by
  have hdata : (normalizeName x).data =
      collapseUS (trimUS (replaceRuns (removeApos (jsLower x.data)))) := rfl
  set r := replaceRuns (removeApos (jsLower x.data)) with hr
  have hg : goodStr r = true := goodStr_replaceRuns _
  have hnd : noDbl r = true := noDbl_replaceRuns _
  have hg2 : goodStr (trimUS r) = true :=
    goodStr_dropTrailUS (goodStr_dropLeadUS hg)
  have hnd2 : noDbl (trimUS r) = true :=
    noDbl_dropTrailUS (noDbl_dropLeadUS hnd)
  have hhd2 : headNotUS (trimUS r) = true :=
    headNotUS_dropTrailUS (headNotUS_dropLeadUS hnd)
  have hlt2 : lastNotUS (trimUS r) = true :=
    lastNotUS_dropTrailUS (noDbl_dropLeadUS hnd)
  rw [hdata, collapseUS_id hnd2, normedForm]
  simp [hg2, hnd2, hhd2, hlt2]

/-- `normalizeName` is the identity on strings already in normalized form. -/
theorem normalizeName_id {s : String} (h : normedForm s.data = true) :
    normalizeName s = s := by
  rw [normedForm] at h
  simp only [Bool.and_eq_true] at h
  obtain ⟨⟨⟨hg, hnd⟩, hhd⟩, hlt⟩ := h
  have : normalizeName s = ⟨collapseUS (trimUS (replaceRuns (removeApos (jsLower s.data))))⟩ := rfl
  rw [this, jsLower_id hg, removeApos_id hg, replaceRuns_id hg hnd, trimUS,
    dropLeadUS_id hhd, dropTrailUS_id hlt, collapseUS_id hnd]

/-- C6 (confirmed): the name-normalization function `normalizeName` is
idempotent — `normalizeName (normalizeName x) = normalizeName x` for every
input string — and deterministic (equal inputs give equal keys), so
normalizing the same display name twice yields the same key. -/
theorem C6_normalizeName_idempotent :
    ∀ x : String, normalizeName (normalizeName x) = normalizeName x ∧
      ∀ y : String, x = y → normalizeName x = normalizeName y := by
  intro x
  exact ⟨normalizeName_id (normedForm_normalizeName x), fun y hxy => by rw [hxy]⟩

/-- Witness for C6 at the concrete display name used by the specification. -/
theorem C6_normalizeName_idempotent_witness :
    normalizeName (normalizeName "Frost Nova") = normalizeName "Frost Nova" ∧
      normalizeName "Frost Nova" = "frost_nova" :=
  ⟨(C6_normalizeName_idempotent "Frost Nova").1, by decide⟩

/-! ## Levenshtein distance

`SpellDatabase.levenshteinDistance` (completionProvider.ts lines 1147-1175)
fills the classic dynamic-programming matrix
(`matrix[i][0] = i`, `matrix[0][j] = j`, and for `i, j ≥ 1`
`matrix[i][j] = matrix[i-1][j-1]` when `b[i-1] = a[j-1]`, else
`1 + min` of the three neighbours) and returns `matrix[b.length][a.length]`.

`levenshteinSpec` is the specification-side definition: the textbook
recursive Levenshtein distance with insertion/deletion/substitution each of
cost 1, written by peeling first characters.  The refinement proof below
shows the source's matrix recurrence computes exactly this function. -/

/-- Classic recursive Levenshtein distance (insertion, deletion and
substitution each cost 1); stated from the specification's words. -/
def levenshteinSpec : List Char → List Char → Nat
  | [], ys => ys.length
  | xs, [] => xs.length
  | x :: xs, y :: ys =>
      if x = y then levenshteinSpec xs ys
      else 1 + min (levenshteinSpec xs ys)
            (min (levenshteinSpec (x :: xs) ys) (levenshteinSpec xs (y :: ys)))
termination_by xs ys => xs.length + ys.length

theorem levSpec_nil_left (ys : List Char) : levenshteinSpec [] ys = ys.length := by
  cases ys <;> simp [levenshteinSpec]

theorem levSpec_nil_right (xs : List Char) : levenshteinSpec xs [] = xs.length := by
  cases xs <;> simp [levenshteinSpec]

theorem levSpec_cons_cons (x y : Char) (xs ys : List Char) :
    levenshteinSpec (x :: xs) (y :: ys) =
      if x = y then levenshteinSpec xs ys
      else 1 + min (levenshteinSpec xs ys)
            (min (levenshteinSpec (x :: xs) ys) (levenshteinSpec xs (y :: ys))) := by
  simp [levenshteinSpec]

theorem one_add_min (a b : Nat) : 1 + min a b = min (1 + a) (1 + b) := by omega

/-- The Levenshtein distance is bounded by the longer length. -/
theorem levSpec_le_max :
    ∀ (xs ys : List Char), levenshteinSpec xs ys ≤ max xs.length ys.length := by
  suffices H : ∀ n (xs ys : List Char), xs.length + ys.length ≤ n →
      levenshteinSpec xs ys ≤ max xs.length ys.length by
    exact fun xs ys => H (xs.length + ys.length) xs ys le_rfl
  intro n
  induction n with
  | zero =>
    intro xs ys h
    have hx : xs = [] := List.eq_nil_of_length_eq_zero (by omega)
    have hy : ys = [] := List.eq_nil_of_length_eq_zero (by omega)
    subst hx; subst hy
    simp [levSpec_nil_left]
  | succ n ih =>
    intro xs ys h
    cases xs with
    | nil => simp [levSpec_nil_left]
    | cons x xs' =>
      cases ys with
      | nil => simp [levSpec_nil_right]
      | cons y ys' =>
        rw [levSpec_cons_cons]
        simp only [List.length_cons] at h ⊢
        have h1 : levenshteinSpec xs' ys' ≤ max xs'.length ys'.length :=
          ih xs' ys' (by omega)
        by_cases hxy : x = y
        · rw [if_pos hxy]; omega
        · rw [if_neg hxy]
          omega

/-- The Levenshtein distance is symmetric. -/
theorem levSpec_comm :
    ∀ (xs ys : List Char), levenshteinSpec xs ys = levenshteinSpec ys xs := by
  suffices H : ∀ n (xs ys : List Char), xs.length + ys.length ≤ n →
      levenshteinSpec xs ys = levenshteinSpec ys xs by
    exact fun xs ys => H (xs.length + ys.length) xs ys le_rfl
  intro n
  induction n with
  | zero =>
    intro xs ys h
    have hx : xs = [] := List.eq_nil_of_length_eq_zero (by omega)
    have hy : ys = [] := List.eq_nil_of_length_eq_zero (by omega)
    subst hx; subst hy; rfl
  | succ n ih =>
    intro xs ys h
    cases xs with
    | nil => rw [levSpec_nil_left, levSpec_nil_right]
    | cons x xs' =>
      cases ys with
      | nil => rw [levSpec_nil_left, levSpec_nil_right]
      | cons y ys' =>
        rw [levSpec_cons_cons, levSpec_cons_cons y x]
        simp only [List.length_cons] at h
        have h1 := ih xs' ys' (by omega)
        have h2 := ih (x :: xs') ys' (by simp; omega)
        have h3 := ih xs' (y :: ys') (by simp; omega)
        by_cases hxy : x = y
        · rw [if_pos hxy, if_pos hxy.symm, h1]
        · rw [if_neg hxy, if_neg (fun hyx => hxy hyx.symm), h1, h2, h3]
          omega

/-- The Levenshtein recurrence also holds when peeling the *last* characters,
which is the form the source's dynamic-programming matrix uses. -/
theorem levSpec_snoc_snoc :
    ∀ (xs ys : List Char) (x y : Char),
      levenshteinSpec (xs ++ [x]) (ys ++ [y]) =
        if x = y then levenshteinSpec xs ys
        else 1 + min (levenshteinSpec xs ys)
              (min (levenshteinSpec (xs ++ [x]) ys)
                   (levenshteinSpec xs (ys ++ [y]))) := by
  suffices H : ∀ n (xs ys : List Char) (x y : Char), xs.length + ys.length ≤ n →
      levenshteinSpec (xs ++ [x]) (ys ++ [y]) =
        if x = y then levenshteinSpec xs ys
        else 1 + min (levenshteinSpec xs ys)
              (min (levenshteinSpec (xs ++ [x]) ys)
                   (levenshteinSpec xs (ys ++ [y]))) by
    exact fun xs ys x y => H (xs.length + ys.length) xs ys x y le_rfl
  intro n
  induction n with
  | zero =>
    intro xs ys x y h
    have hx : xs = [] := List.eq_nil_of_length_eq_zero (by omega)
    have hy : ys = [] := List.eq_nil_of_length_eq_zero (by omega)
    subst hx; subst hy
    simp only [List.nil_append]
    rw [levSpec_cons_cons]
  | succ n ih =>
    intro xs ys x y h
    cases xs with
    | nil =>
      cases ys with
      | nil =>
        simp only [List.nil_append]
        rw [levSpec_cons_cons]
      | cons y' ys' =>
        simp only [List.nil_append, List.cons_append]
        rw [levSpec_cons_cons]
        have hIH := ih [] ys' x y (by simp at h ⊢; omega)
        simp only [List.nil_append] at hIH
        rw [levSpec_cons_cons x y' [] ys']
        rw [hIH]
        simp only [levSpec_nil_left, List.length_append, List.length_cons,
          List.length_nil]
        by_cases h1 : x = y'
        · by_cases h2 : x = y
          · simp only [if_pos h1, if_pos h2]
          · simp only [if_pos h1, if_neg h2, levSpec_nil_left]
            omega
        · by_cases h2 : x = y
          · simp only [if_neg h1, if_pos h2, levSpec_nil_left]
            omega
          · simp only [if_neg h1, if_neg h2, levSpec_nil_left]
    | cons x' xs' =>
      cases ys with
      | nil =>
        simp only [List.nil_append, List.cons_append]
        rw [levSpec_cons_cons]
        have hIH := ih xs' [] x y (by simp at h ⊢; omega)
        simp only [List.nil_append] at hIH
        rw [levSpec_cons_cons x' y xs' []]
        rw [hIH]
        simp only [levSpec_nil_right, List.length_append, List.length_cons,
          List.length_nil]
        by_cases h1 : x' = y
        · by_cases h2 : x = y
          · simp only [if_pos h1, if_pos h2]
          · simp only [if_pos h1, if_neg h2, levSpec_nil_right]
            omega
        · by_cases h2 : x = y
          · simp only [if_neg h1, if_pos h2, levSpec_nil_right]
            omega
          · simp only [if_neg h1, if_neg h2, levSpec_nil_right]
      | cons y' ys' =>
        simp only [List.cons_append]
        simp only [List.length_cons] at h
        have hA := ih xs' ys' x y (by omega)
        have hB := ih (x' :: xs') ys' x y (by simp; omega)
        have hC := ih xs' (y' :: ys') x y (by simp; omega)
        simp only [List.cons_append] at hB hC
        rw [levSpec_cons_cons x' y' (xs' ++ [x]) (ys' ++ [y])]
        rw [levSpec_cons_cons x' y' xs' ys']
        rw [levSpec_cons_cons x' y' (xs' ++ [x]) ys']
        rw [levSpec_cons_cons x' y' xs' (ys' ++ [y])]
        rw [hA, hB, hC]
        by_cases hp : x' = y'
        · by_cases hq : x = y
          · simp only [if_pos hp, if_pos hq]
          · simp only [if_pos hp, if_neg hq]
        · by_cases hq : x = y
          · simp only [if_neg hp, if_pos hq]
          · simp only [if_neg hp, if_neg hq]
            -- the nine-atom minimum permutation
            simp only [one_add_min]
            apply le_antisymm <;> simp only [le_min_iff, min_le_iff] <;> omega

/-- Cell `(i, j)` of the source's dynamic-programming matrix (rows indexed by
characters of `b`, columns by characters of `a`):
`matrix[i][0] = i`, `matrix[0][j] = j`, and for `i, j ≥ 1` the cell is
`matrix[i-1][j-1]` when `b.charAt(i-1) = a.charAt(j-1)` and otherwise
`1 + min(matrix[i-1][j-1], matrix[i][j-1], matrix[i-1][j])`, exactly as the
two nested loops fill it. -/
def matDP (b a : List Char) : Nat → Nat → Nat
  | 0, j => j
  | i + 1, 0 => i + 1
  | i + 1, j + 1 =>
      if b.getD i (Char.ofNat 32) = a.getD j (Char.ofNat 32) then matDP b a i j
      else 1 + min (matDP b a i j) (min (matDP b a (i + 1) j) (matDP b a i (j + 1)))
termination_by i j => i + j

/-- The inner loop (`for j = 1 .. a.length`) of the matrix fill: compute the
cells `j' + 1, ..., a.length` of the next row.  `prev` is the previous row,
`left` the cell of the current row at column `j'` (already computed), and
`fuel = a.length - j'` counts the remaining columns. -/
def nextRowAux (bc : Char) (a : List Char) (prev : List Nat) :
    Nat → Nat → Nat → List Nat
  | 0, _, _ => []
  | fuel + 1, j', left =>
      let v := if bc = a.getD j' (Char.ofNat 32) then prev.getD j' 0
               else 1 + min (prev.getD j' 0) (min left (prev.getD (j' + 1) 0))
      v :: nextRowAux bc a prev fuel (j' + 1) v

/-- The outer loop (`for i = 1 .. b.length`) of the matrix fill: starting
from row `i`, compute the remaining `fuel = b.length - i` rows and return the
last one.  Each new row starts with its column-0 value `i + 1`. -/
def dpRowsAux (b a : List Char) : Nat → Nat → List Nat → List Nat
  | 0, _, row => row
  | fuel + 1, i, row =>
      dpRowsAux b a fuel (i + 1)
        ((i + 1) :: nextRowAux (b.getD i (Char.ofNat 32)) a row a.length 0 (i + 1))

/-- `SpellDatabase.levenshteinDistance(a, b)`: the two guard clauses for empty
inputs, then the row-by-row matrix fill (row 0 is `0, 1, ..., a.length`)
returning `matrix[b.length][a.length]`. -/
def levenshteinDistance (a b : String) : Nat :=
  if a.length = 0 then b.length
  else if b.length = 0 then a.length
  else
    (dpRowsAux b.data a.data b.data.length 0
      (List.range (a.data.length + 1))).getD a.data.length 0

theorem take_succ_getD (l : List Char) (n : Nat) (h : n < l.length) :
    l.take (n + 1) = l.take n ++ [l.getD n (Char.ofNat 32)] := by
  rw [List.take_succ, List.getElem?_eq_getElem h]
  simp [List.getD_eq_getElem?_getD, List.getElem?_eq_getElem h]

/-- Each matrix cell holds the Levenshtein distance of the corresponding
prefixes. -/
theorem matDP_eq_levSpec (b a : List Char) :
    ∀ n i j, i + j ≤ n → i ≤ b.length → j ≤ a.length →
      matDP b a i j = levenshteinSpec (b.take i) (a.take j) := by
  intro n
  induction n with
  | zero =>
    intro i j hn hi hj
    have hi0 : i = 0 := by omega
    have hj0 : j = 0 := by omega
    subst hi0; subst hj0
    simp [matDP, levSpec_nil_left]
  | succ n ih =>
    intro i j hn hi hj
    cases i with
    | zero =>
      rw [matDP]
      rw [List.take_zero, levSpec_nil_left, List.length_take]
      omega
    | succ i =>
      cases j with
      | zero =>
        rw [matDP]
        rw [List.take_zero, levSpec_nil_right, List.length_take]
        omega
      | succ j =>
        rw [matDP]
        rw [take_succ_getD b i (by omega), take_succ_getD a j (by omega)]
        rw [levSpec_snoc_snoc]
        have h1 := ih i j (by omega) (by omega) (by omega)
        have h2 := ih (i + 1) j (by omega) (by omega) (by omega)
        have h3 := ih i (j + 1) (by omega) (by omega) (by omega)
        rw [h1, h2, h3]
        rw [take_succ_getD b i (by omega), take_succ_getD a j (by omega)]

theorem getD_map_range (n : Nat) (f : Nat → Nat) (k : Nat) (h : k < n) :
    ((List.range n).map f).getD k 0 = f k := by
  rw [List.getD_eq_getElem?_getD, List.getElem?_map, List.getElem?_range h]
  rfl

/-- The inner loop turns row `i` of the matrix into the tail of row `i + 1`. -/
theorem nextRowAux_spec (b a : List Char) (i : Nat) (_hi : i < b.length) :
    ∀ fuel j', j' + fuel = a.length →
      nextRowAux (b.getD i (Char.ofNat 32)) a
          ((List.range (a.length + 1)).map (matDP b a i)) fuel j'
          (matDP b a (i + 1) j') =
        (List.range' (j' + 1) fuel).map (matDP b a (i + 1)) := by
  intro fuel
  induction fuel with
  | zero => intro j' h; rfl
  | succ fuel ih =>
    intro j' h
    rw [nextRowAux]
    rw [List.range'_succ, List.map_cons]
    rw [getD_map_range _ _ _ (by omega), getD_map_range _ _ _ (by omega)]
    have hv : (if b.getD i (Char.ofNat 32) = a.getD j' (Char.ofNat 32) then
          matDP b a i j'
        else 1 + min (matDP b a i j')
            (min (matDP b a (i + 1) j') (matDP b a i (j' + 1)))) =
        matDP b a (i + 1) (j' + 1) := by
      rw [matDP]
    rw [hv]
    rw [ih (j' + 1) (by omega)]

/-- The outer loop carries the row invariant to the final row. -/
theorem dpRowsAux_spec (b a : List Char) :
    ∀ fuel i, i + fuel = b.length →
      dpRowsAux b a fuel i ((List.range (a.length + 1)).map (matDP b a i)) =
        (List.range (a.length + 1)).map (matDP b a b.length) := by
  intro fuel
  induction fuel with
  | zero =>
    intro i h
    rw [dpRowsAux]
    have : i = b.length := by omega
    rw [this]
  | succ fuel ih =>
    intro i h
    rw [dpRowsAux]
    have h0 : matDP b a (i + 1) 0 = i + 1 := by rw [matDP]
    have hrow : (i + 1) :: nextRowAux (b.getD i (Char.ofNat 32)) a
        ((List.range (a.length + 1)).map (matDP b a i)) a.length 0 (i + 1) =
        (List.range (a.length + 1)).map (matDP b a (i + 1)) := by
      conv_rhs => rw [List.range_eq_range', List.range'_succ, List.map_cons]
      have hnext := nextRowAux_spec b a i (by omega) a.length 0 (by omega)
      rw [h0] at hnext
      rw [hnext, h0]
    rw [hrow]
    exact ih (i + 1) (by omega)

theorem range_map_matDP_zero (b a : List Char) :
    (List.range (a.length + 1)).map (matDP b a 0) = List.range (a.length + 1) := by
  have : ∀ j ∈ List.range (a.length + 1), matDP b a 0 j = j := by
    intro j _
    rw [matDP]
  rw [List.map_congr_left this]
  simp

/-- The source's matrix algorithm computes the recursive Levenshtein
distance of its two arguments. -/
theorem levenshteinDistance_eq (a b : String) :
    levenshteinDistance a b = levenshteinSpec a.data b.data := by
  rw [levenshteinDistance]
  by_cases ha : a.length = 0
  · rw [if_pos ha]
    have : a.data = [] := List.eq_nil_of_length_eq_zero ha
    rw [this, levSpec_nil_left]
    rfl
  · rw [if_neg ha]
    by_cases hb : b.length = 0
    · rw [if_pos hb]
      have : b.data = [] := List.eq_nil_of_length_eq_zero hb
      rw [this, levSpec_nil_right]
      rfl
    · rw [if_neg hb]
      rw [← range_map_matDP_zero b.data a.data]
      rw [dpRowsAux_spec b.data a.data b.data.length 0 (by omega)]
      rw [getD_map_range _ _ _ (by omega)]
      rw [matDP_eq_levSpec b.data a.data (b.data.length + a.data.length) _ _
        le_rfl le_rfl le_rfl]
      rw [List.take_length, List.take_length, levSpec_comm]

/-! ## `SpellDatabase` (completionProvider.ts lines 852-1187) -/

/-- JS `String.prototype.trim` (ASCII whitespace model). -/
def trimWS (l : List Char) : List Char :=
  ((l.dropWhile isWS).reverse.dropWhile isWS).reverse

/-- `String.prototype.split(sep)` for a one-character separator test. -/
def splitOnP (p : Char → Bool) : List Char → List (List Char)
  | [] => [[]]
  | c :: t =>
      match splitOnP p t with
      | [] => [[]]
      | h :: r => if p c then [] :: h :: r else (c :: h) :: r

/-- `content.split(/\r?\n/)`: a separator is a newline optionally preceded
by a carriage return; a lone carriage return is ordinary text. -/
def splitLines : List Char → List (List Char)
  | [] => [[]]
  | c :: t =>
      if c.toNat == 10 then [] :: splitLines t
      else if c.toNat == 13 then
        match t with
        | d :: t' =>
            if d.toNat == 10 then [] :: splitLines t'
            else
              match splitLines (d :: t') with
              | [] => [[]]
              | h :: r => (c :: h) :: r
        | [] => [[c]]
      else
        match splitLines t with
        | [] => [[]]
        | h :: r => (c :: h) :: r

/-- `SpellDatabase.parseCsvLine` inner loop: `acc` is the reversed current
field, `inQ` the `inQuotes` flag. -/
def parseCsvAux : List Char → Bool → List Char → List String
  | acc, _, [] => [⟨trimWS acc.reverse⟩]
  | acc, inQ, c :: t =>
      if c.toNat == 34 then
        if inQ then
          match t with
          | d :: t' =>
              if d.toNat == 34 then parseCsvAux (d :: acc) inQ t'
              else parseCsvAux acc false (d :: t')
          | [] => [⟨trimWS acc.reverse⟩]
        else parseCsvAux acc true t
      else if c.toNat == 44 && !inQ then
        ⟨trimWS acc.reverse⟩ :: parseCsvAux [] inQ t
      else parseCsvAux (c :: acc) inQ t

/-- `SpellDatabase.parseCsvLine`. -/
def parseCsvLine (line : String) : List String := parseCsvAux [] false line.data

/-- The digits-value part of `parseInt(s, 10)`. -/
def digitsVal (l : List Char) : Option Nat :=
  let ds := l.takeWhile isDigitC
  if ds.isEmpty then none
  else some (ds.foldl (fun acc c => acc * 10 + (c.toNat - 48)) 0)

/-- JS `parseInt(s, 10)`: skip leading whitespace, optional sign, then
leading decimal digits; `none` models `NaN`. -/
def parseIntJS (s : String) : Option Int :=
  match s.data.dropWhile isWS with
  | c :: t =>
      if c.toNat == 45 then (digitsVal t).map (fun n => -(n : Int))
      else if c.toNat == 43 then (digitsVal t).map (fun n => (n : Int))
      else (digitsVal (c :: t)).map (fun n => (n : Int))
  | [] => none

/-- `SpellInfo` (completionProvider.ts lines 852-856). -/
structure SpellInfo where
  id : Int
  name : String
  normalizedName : String
deriving Repr, DecidableEq

/-- The mutable state of a `SpellDatabase`: the two insertion-ordered maps
and the `loaded` flag. -/
structure SpellDB where
  spells : List (String × SpellInfo)
  spellsById : List (Int × SpellInfo)
  loaded : Bool
deriving Repr, DecidableEq

/-- The freshly constructed database singleton. -/
def initialDB : SpellDB := ⟨[], [], false⟩

/-- JS `Map.prototype.set`: overwrite in place if the key exists (keeping its
insertion position), else append. -/
def mapSet {α β : Type} [BEq α] (m : List (α × β)) (k : α) (v : β) :
    List (α × β) :=
  if m.any (fun p => p.1 == k) then
    m.map (fun p => if p.1 == k then (k, v) else p)
  else m ++ [(k, v)]

/-- One data row of `loadFromCsv`'s loop (lines 908-929): parse the trimmed
line, skip malformed rows, otherwise insert into both maps. -/
def loadRow (idIdx nameIdx : Nat) (db : SpellDB) (rawLine : List Char) :
    SpellDB :=
  let line := trimWS rawLine
  if line.isEmpty then db
  else
    let columns := parseCsvLine ⟨line⟩
    if columns.length ≤ max idIdx nameIdx then db
    else
      let idStr := columns.getD idIdx ""
      let name := columns.getD nameIdx ""
      if idStr.isEmpty || name.isEmpty then db
      else
        match parseIntJS idStr with
        | none => db
        | some id =>
            let normalized := normalizeName name
            let spell : SpellInfo := ⟨id, name, normalized⟩
            { db with
              spells := mapSet db.spells normalized spell
              spellsById := mapSet db.spellsById id spell }

/-- `SpellDatabase.loadFromCsv` (lines 883-939).  The file system read is
modelled by the argument: `none` is a missing file (`fs.existsSync` false),
`some content` the file's text.  Returns the JS boolean result together with
the updated database state. -/
def loadFromCsv (content : Option String) (db : SpellDB) : Bool × SpellDB :=
  match content with
  | none => (false, db)
  | some content =>
      let lines := splitLines content.data
      if lines.length = 0 then (false, db)
      else
        let header :=
          (splitOnP (fun c => c.toNat == 44) (jsLower (lines.getD 0 []))).map
            (fun h => (⟨trimWS h⟩ : String))
        match header.findIdx? (fun h => h == "id"),
              header.findIdx? (fun h => h == "name" || h == "name_lang") with
        | some idIdx, some nameIdx =>
            let countBefore := db.spells.length
            let db' := (lines.drop 1).foldl (loadRow idIdx nameIdx) db
            let loadedCount := db'.spells.length - countBefore
            (decide (0 < loadedCount), { db' with loaded := true })
        | _, _ => (false, db)

/-- `SpellDatabase.isValidSpell` (lines 1086-1090). -/
def isValidSpell (db : SpellDB) (name : String) : Bool :=
  if !db.loaded then true
  else db.spells.any (fun p => p.1 == normalizeName name)

/-- `SpellDatabase.findSimilar` (lines 1133-1145): keep every table entry
whose key is within the distance bounds (in table order) and return the
first five. -/
def findSimilar (db : SpellDB) (name : String) (maxDistance : Nat) :
    List SpellInfo :=
  let normalized := normalizeName name
  (((db.spells.filter (fun p =>
      let d := levenshteinDistance normalized p.1
      d ≤ maxDistance && 0 < d)).map Prod.snd).take 5)

/-- A sequence of `loadFromCsv` calls: the list of returned booleans and the
final database state. -/
def runLoads : SpellDB → List (Option String) → List Bool × SpellDB
  | db, [] => ([], db)
  | db, c :: rest =>
      let r := loadFromCsv c db
      let rs := runLoads r.2 rest
      (r.1 :: rs.1, rs.2)

/-! ## C1: the fail-open policy of `isValidSpell` -/

/-- Does a `loadFromCsv` call get past the header checks?  Mirrors the
early-return conditions of the source: a missing file, an empty line array,
or a header without both an `id` and a `name`/`name_lang` column all fail
before any state is touched. -/
def loadLocatesHeader : Option String → Bool
  | none => false
  | some content =>
      let lines := splitLines content.data
      if lines.length = 0 then false
      else
        let header :=
          (splitOnP (fun c => c.toNat == 44) (jsLower (lines.getD 0 []))).map
            (fun h => (⟨trimWS h⟩ : String))
        (header.findIdx? (fun h => h == "id")).isSome &&
        (header.findIdx? (fun h => h == "name" || h == "name_lang")).isSome

/-- A call that fails before locating the header leaves the database state
untouched (and returns `false`). -/
theorem loadFromCsv_early_fail {c : Option String} (h : loadLocatesHeader c = false)
    (db : SpellDB) : loadFromCsv c db = (false, db) := by
  cases c with
  | none => rfl
  | some content =>
    rw [loadFromCsv]
    rw [loadLocatesHeader] at h
    by_cases hl : (splitLines content.data).length = 0
    · rw [if_pos hl]
    · rw [if_neg hl] at h ⊢
      dsimp only at h ⊢
      split
      · rename_i idIdx nameIdx hid hname
        rw [hid, hname] at h
        simp at h
      · rfl

/-- A sequence of early-failing loads leaves any starting state unchanged. -/
theorem runLoads_early_fail :
    ∀ (inputs : List (Option String)) (db : SpellDB),
      (inputs.all fun c => !loadLocatesHeader c) = true →
      runLoads db inputs = (inputs.map fun _ => false, db) := by
  intro inputs
  induction inputs with
  | nil => intro db _; rfl
  | cons c rest ih =>
    intro db h
    simp only [List.all_cons, Bool.and_eq_true] at h
    rw [runLoads]
    have hc : loadLocatesHeader c = false := by simpa using h.1
    rw [loadFromCsv_early_fail hc]
    rw [ih db h.2]
    rfl

/-- C1 (corrected): the claim as frozen is false — a `loadFromCsv` call can
return `false` (it added zero records) while still setting `loaded`, after
which `isValidSpell` is membership-based and rejects names.  The amended
claim holds: if the name source was never loaded, or every load call failed
before locating the id and name header columns (missing file, no lines, or
missing columns — the only ways the `loaded` flag stays down), then
`isValidSpell` returns `true` for every input string. -/
theorem C1_failOpen_amended :
    ∀ (inputs : List (Option String)),
      (inputs.all fun c => !loadLocatesHeader c) = true →
      ∀ s : String, isValidSpell (runLoads initialDB inputs).2 s = true := by
  intro inputs h s
  rw [runLoads_early_fail inputs initialDB h]
  rfl

/-- Witness for C1: a missing file and a header without the required columns
both fail early, and `isValidSpell` then accepts an arbitrary string. -/
theorem C1_failOpen_amended_witness :
    ((([none, some "x,y"] : List (Option String)).all
        fun c => !loadLocatesHeader c) = true) ∧
    isValidSpell (runLoads initialDB [none, some "x,y"]).2 "frost_nova" = true :=
  ⟨by decide, C1_failOpen_amended [none, some "x,y"] (by decide) "frost_nova"⟩

/-- Counterexample for C1 as frozen: loading a source that contains only the
header row `id,name` returns `false` (zero records were added), so "every
call to load returned false" holds; yet the call set the `loaded` flag, and
`isValidSpell` afterwards returns `false` for an arbitrary name instead of
the claimed `true`. -/
theorem C1_failOpen_counterexample :
    (runLoads initialDB [some "id,name"]).1 = [false] ∧
    isValidSpell (runLoads initialDB [some "id,name"]).2 "anything" = false := by
  constructor
  · rfl
  · rfl

/-! ## C4: characterization of `findSimilar` -/

/-- The per-entry test of `findSimilar` agrees with the specification's
Levenshtein predicate. -/
theorem findSimilar_pred_eq (nrm key : String) :
    (decide (levenshteinDistance nrm key ≤ 2) &&
      decide (0 < levenshteinDistance nrm key)) =
    decide (0 < levenshteinSpec nrm.data key.data ∧
      levenshteinSpec nrm.data key.data ≤ 2) := by
  rw [levenshteinDistance_eq]
  by_cases h1 : 0 < levenshteinSpec nrm.data key.data <;>
    by_cases h2 : levenshteinSpec nrm.data key.data ≤ 2 <;>
      simp [h1, h2]

/-- C4 (confirmed): for every loaded table and input, `findSimilar` with
`maxDistance = 2` returns exactly the records whose normalized key is at
classic Levenshtein distance `d` (insertion/deletion/substitution cost 1)
from the normalized input with `0 < d ≤ 2`, capped at 5 and in
table-iteration order; in particular an entry at distance 1 is returned
(whenever the cap admits it) and an input with no entry within distance 2
yields the empty result. -/
theorem C4_findSimilar_levenshtein :
    ∀ (db : SpellDB) (name : String),
      (findSimilar db name 2 =
        ((db.spells.filter fun p =>
            decide (0 < levenshteinSpec (normalizeName name).data p.1.data ∧
              levenshteinSpec (normalizeName name).data p.1.data ≤ 2)).map
          Prod.snd).take 5) ∧
      ((db.spells.filter fun p =>
          decide (0 < levenshteinSpec (normalizeName name).data p.1.data ∧
            levenshteinSpec (normalizeName name).data p.1.data ≤ 2)).length ≤ 5 →
        ∀ p ∈ db.spells,
          levenshteinSpec (normalizeName name).data p.1.data = 1 →
            p.2 ∈ findSimilar db name 2) ∧
      ((∀ p ∈ db.spells,
          ¬(0 < levenshteinSpec (normalizeName name).data p.1.data ∧
            levenshteinSpec (normalizeName name).data p.1.data ≤ 2)) →
        findSimilar db name 2 = []) := by
  intro db name
  have hfilter : (db.spells.filter fun p =>
      decide (levenshteinDistance (normalizeName name) p.1 ≤ 2) &&
        decide (0 < levenshteinDistance (normalizeName name) p.1)) =
      (db.spells.filter fun p =>
        decide (0 < levenshteinSpec (normalizeName name).data p.1.data ∧
          levenshteinSpec (normalizeName name).data p.1.data ≤ 2)) :=
    List.filter_congr (fun p _ => findSimilar_pred_eq (normalizeName name) p.1)
  have hmain : findSimilar db name 2 =
      ((db.spells.filter fun p =>
          decide (0 < levenshteinSpec (normalizeName name).data p.1.data ∧
            levenshteinSpec (normalizeName name).data p.1.data ≤ 2)).map
        Prod.snd).take 5 := by
    rw [findSimilar]
    rw [← hfilter]
  refine ⟨hmain, ?_, ?_⟩
  · intro hlen p hp hd1
    rw [hmain]
    rw [List.take_of_length_le (by simpa using hlen)]
    exact List.mem_map.mpr ⟨p, List.mem_filter.mpr ⟨hp, by simp [hd1]⟩, rfl⟩
  · intro hall
    rw [hmain]
    have : (db.spells.filter fun p =>
        decide (0 < levenshteinSpec (normalizeName name).data p.1.data ∧
          levenshteinSpec (normalizeName name).data p.1.data ≤ 2)) = [] := by
      rw [List.filter_eq_nil_iff]
      intro p hp
      simpa using hall p hp
    rw [this]
    rfl

/-- Witness table for C4: the specification's two-entry example. -/
def exampleDB : SpellDB :=
  ⟨[("fireball", ⟨12345, "Fireball", "fireball"⟩),
    ("frost_nova", ⟨12346, "Frost Nova", "frost_nova"⟩)],
   [(12345, ⟨12345, "Fireball", "fireball"⟩),
    (12346, ⟨12346, "Frost Nova", "frost_nova"⟩)], true⟩

/-- Witness for C4: `frost_nov` is at distance 1 from `frost_nova` and is
suggested; `completely_unrelated_xyz` has no entry within distance 2 and
gets no suggestions. -/
theorem C4_findSimilar_levenshtein_witness :
    (⟨12346, "Frost Nova", "frost_nova"⟩ : SpellInfo) ∈
      findSimilar exampleDB "frost_nov" 2 ∧
    findSimilar exampleDB "completely_unrelated_xyz" 2 = [] := by
  constructor
  · exact (C4_findSimilar_levenshtein exampleDB "frost_nov").2.1
      (le_trans (List.length_filter_le _ _) (by decide))
      ("frost_nova", ⟨12346, "Frost Nova", "frost_nova"⟩)
      (by decide)
      (by rw [← levenshteinDistance_eq]; decide)
  · apply (C4_findSimilar_levenshtein exampleDB "completely_unrelated_xyz").2.2
    intro p hp
    have hp' : p = ("fireball", (⟨12345, "Fireball", "fireball"⟩ : SpellInfo)) ∨
        p = ("frost_nova", (⟨12346, "Frost Nova", "frost_nova"⟩ : SpellInfo)) := by
      simpa [exampleDB] using hp
    rcases hp' with rfl | rfl <;>
      · rw [← levenshteinDistance_eq]
        decide

/-! ## C7: `.any`-suffixed template shapes (hoverProvider.ts lines 112-205)

The hover matcher tests `buff`/`debuff`/`dot` tokens against
`/^K\.(\w+)\.(\w+)\.any$/` and `/^K\.(\w+)\.(\w+)$/`.  Because `\w` excludes
the dot, such a regex matches exactly when the token splits on dots into the
literal kind, two nonempty all-word segments, and (for the first shape) the
literal `any`; the embedding below matches on that dot decomposition. -/

/-- Split a token at every dot. -/
def splitDots (l : List Char) : List (List Char) :=
  splitOnP (fun c => c.toNat == 46) l

/-- A nonempty `\w+` segment. -/
def wordSeg (l : List Char) : Bool := !l.isEmpty && l.all isWordC

/-- `/^KIND\.(\w+)\.(\w+)\.any$/` with its two captures. -/
def auraAnyShape (kind : String) (word : String) : Option (String × String) :=
  match splitDots word.data with
  | [k, s, pr, a] =>
      if k == kind.data && wordSeg s && wordSeg pr && a == "any".data then
        some (⟨s⟩, ⟨pr⟩)
      else none
  | _ => none

/-- `/^KIND\.(\w+)\.(\w+)$/` with its two captures. -/
def auraBaseShape (kind : String) (word : String) : Option (String × String) :=
  match splitDots word.data with
  | [k, s, pr] =>
      if k == kind.data && wordSeg s && wordSeg pr then some (⟨s⟩, ⟨pr⟩)
      else none
  | _ => none

/-- `buffAnyMatch` (line 114). -/
def buffAnyMatch : String → Option (String × String) := auraAnyShape "buff"

/-- `buffMatch` (line 129). -/
def buffMatch : String → Option (String × String) := auraBaseShape "buff"

/-- `debuffAnyMatch` (line 150). -/
def debuffAnyMatch : String → Option (String × String) := auraAnyShape "debuff"

/-- `debuffMatch` (line 165). -/
def debuffMatch : String → Option (String × String) := auraBaseShape "debuff"

/-- `dotAnyMatch` (line 179). -/
def dotAnyMatch : String → Option (String × String) := auraAnyShape "dot"

/-- `dotMatch` (line 194). -/
def dotMatch : String → Option (String × String) := auraBaseShape "dot"

/-- Rejoin dot-separated segments. -/
def joinSegs : List (List Char) → List Char
  | [] => []
  | [s] => s
  | s :: r => s ++ Char.ofNat 46 :: joinSegs r

theorem joinSegs_cons (s : List Char) (r : List (List Char)) (hr : r ≠ []) :
    joinSegs (s :: r) = s ++ Char.ofNat 46 :: joinSegs r := by
  cases r with
  | nil => exact absurd rfl hr
  | cons a t => rfl

theorem splitOnP_ne_nil (p : Char → Bool) : ∀ l, splitOnP p l ≠ [] := by
  intro l
  cases l with
  | nil => simp [splitOnP]
  | cons c t =>
    rw [splitOnP]
    rcases h : splitOnP p t with _ | ⟨h', r⟩
    · simp
    · by_cases hc : p c = true <;> simp [hc]

/-- Rejoining the dot-split of a list gives the list back. -/
theorem joinSegs_splitDots : ∀ l, joinSegs (splitDots l) = l := by
  intro l
  induction l with
  | nil => rfl
  | cons c t ih =>
    rw [splitDots, splitOnP]
    rcases h : splitOnP (fun c => c.toNat == 46) t with _ | ⟨h', r⟩
    · exact absurd h (splitOnP_ne_nil _ t)
    · rw [splitDots, h] at ih
      dsimp only
      by_cases hc : (c.toNat == 46) = true
      · rw [if_pos hc]
        rw [joinSegs_cons [] (h' :: r) (by simp)]
        have : c = Char.ofNat 46 := char_eq_of_toNat_eq (by
          have h46 : c.toNat = 46 := by simpa using hc
          rw [h46]; rfl)
        rw [List.nil_append, ← this, ih]
      · rw [if_neg hc]
        cases r with
        | nil =>
          rw [joinSegs] at ih ⊢
          rw [ih]
        | cons a t' =>
          rw [joinSegs_cons (c :: h') (a :: t') (by simp),
            joinSegs_cons h' (a :: t') (by simp)] at *
          rw [List.cons_append, ih]

/-- Splitting after prepending a dot-free segment and a dot. -/
theorem splitOnP_append_clean (p : Char → Bool) :
    ∀ (s l : List Char), s.all (fun c => !p c) = true →
      splitOnP p (s ++ l) =
        match splitOnP p l with
        | [] => [s]
        | h :: r => (s ++ h) :: r := by
  intro s
  induction s with
  | nil =>
    intro l _
    rcases h : splitOnP p l with _ | ⟨h', r⟩
    · exact absurd h (splitOnP_ne_nil p l)
    · simpa using h
  | cons c s' ih =>
    intro l hclean
    simp only [List.all_cons, Bool.and_eq_true] at hclean
    have hc : p c = false := by
      cases hv : p c
      · rfl
      · rw [hv] at hclean; cases hclean.1.symm.trans (by rfl)
    rw [List.cons_append, splitOnP]
    rw [ih l hclean.2]
    rcases h : splitOnP p l with _ | ⟨h', r⟩
    · exact absurd h (splitOnP_ne_nil p l)
    · simp [hc]

theorem splitDots_single {s : List Char} (h : (s.all fun c => !(c.toNat == 46)) = true) :
    splitDots s = [s] := by
  have hs := splitOnP_append_clean (fun c => c.toNat == 46) s [] h
  rw [List.append_nil] at hs
  rw [splitDots, hs]
  rw [show splitOnP (fun c => c.toNat == 46) [] = [[]] from rfl]
  simp

theorem splitDots_sep (s l : List Char)
    (h : (s.all fun c => !(c.toNat == 46)) = true) :
    splitDots (s ++ Char.ofNat 46 :: l) = s :: splitDots l := by
  have hdot : splitOnP (fun c => c.toNat == 46) (Char.ofNat 46 :: l) =
      [] :: splitOnP (fun c => c.toNat == 46) l := by
    rw [splitOnP]
    rcases hl : splitOnP (fun c => c.toNat == 46) l with _ | ⟨h', r⟩
    · exact absurd hl (splitOnP_ne_nil _ l)
    · dsimp only
      rw [if_pos (by rfl)]
  rw [splitDots, splitOnP_append_clean _ s _ h, hdot]
  simp [splitDots]

theorem wordSeg_no_dot {s : List Char} (h : wordSeg s = true) :
    (s.all fun c => !(c.toNat == 46)) = true := by
  rw [wordSeg, Bool.and_eq_true] at h
  rw [List.all_eq_true] at h ⊢
  intro c hc
  have hw := h.2 c hc
  simp only [isWordC, isLowerAZ, isUpperAZ, isDigitC, Bool.or_eq_true,
    Bool.and_eq_true, decide_eq_true_eq, beq_iff_eq] at hw
  simp only [Bool.not_eq_true', beq_eq_false_iff_ne, ne_eq]
  omega

/-- Stripping the `.any` suffix from a token that matches the `.any` shape
yields a token matching the base shape with the same captures. -/
theorem auraAnyShape_strip (kind : String)
    (hk : (kind.data.all fun c => !(c.toNat == 46)) = true) (word s p : String)
    (h : auraAnyShape kind word = some (s, p)) :
    ∃ base : String, word = base ++ ".any" ∧ auraBaseShape kind base = some (s, p) := by
  rw [auraAnyShape] at h
  split at h
  · rename_i k s' pr a heq
    by_cases hcond : (k == kind.data && wordSeg s' && wordSeg pr &&
        a == "any".data) = true
    · rw [if_pos hcond] at h
      injection h with h
      have hsp : s = (⟨s'⟩ : String) ∧ p = (⟨pr⟩ : String) := by
        have h1 := congrArg Prod.fst h
        have h2 := congrArg Prod.snd h
        exact ⟨h1.symm, h2.symm⟩
      simp only [Bool.and_eq_true, beq_iff_eq] at hcond
      obtain ⟨⟨⟨hkk, hws⟩, hwp⟩, ha⟩ := hcond
      refine ⟨⟨joinSegs [k, s', pr]⟩, ?_, ?_⟩
      · -- `word` is the joined four segments, the base the joined first three
        have hword : word.data = joinSegs [k, s', pr, a] := by
          rw [← heq]
          exact (joinSegs_splitDots word.data).symm
        apply String.ext
        show word.data = joinSegs [k, s', pr] ++ (".any" : String).data
        rw [hword, ha]
        show k ++ Char.ofNat 46 ::
            (s' ++ Char.ofNat 46 :: (pr ++ Char.ofNat 46 :: "any".data)) =
          (k ++ Char.ofNat 46 :: (s' ++ Char.ofNat 46 :: pr)) ++
            Char.ofNat 46 :: "any".data
        simp
      · rw [auraBaseShape]
        have hbase : splitDots (joinSegs [k, s', pr]) = [k, s', pr] := by
          show splitDots (k ++ Char.ofNat 46 ::
            (s' ++ Char.ofNat 46 :: pr)) = [k, s', pr]
          rw [splitDots_sep k _ (hkk ▸ hk),
            splitDots_sep s' _ (wordSeg_no_dot hws),
            splitDots_single (wordSeg_no_dot hwp)]
        rw [show (⟨joinSegs [k, s', pr]⟩ : String).data = joinSegs [k, s', pr] from rfl]
        rw [hbase]
        dsimp only
        rw [if_pos (by simp [hkk, hws, hwp])]
        rw [hsp.1, hsp.2]
    · rw [if_neg hcond] at h
      cases h
  · cases h

/-- C7 (confirmed): every token matching a templated `.any` shape
(`buff.X.prop.any`, `debuff.X.prop.any`, `dot.X.prop.any`) equals a base
token followed by `.any`, and that base token matches the corresponding
non-`.any` shape with the same captured spell name and property. -/
theorem C7_any_strip_matches_base :
    ∀ (word s p : String),
      (buffAnyMatch word = some (s, p) →
        ∃ base : String, word = base ++ ".any" ∧ buffMatch base = some (s, p)) ∧
      (debuffAnyMatch word = some (s, p) →
        ∃ base : String, word = base ++ ".any" ∧ debuffMatch base = some (s, p)) ∧
      (dotAnyMatch word = some (s, p) →
        ∃ base : String, word = base ++ ".any" ∧ dotMatch base = some (s, p)) :=
  fun word s p =>
    ⟨auraAnyShape_strip "buff" (by decide) word s p,
     auraAnyShape_strip "debuff" (by decide) word s p,
     auraAnyShape_strip "dot" (by decide) word s p⟩

/-- Witness for C7 on a concrete token. -/
theorem C7_any_strip_matches_base_witness :
    buffAnyMatch "buff.frost_nova.up.any" = some ("frost_nova", "up") ∧
    (∃ base : String, "buff.frost_nova.up.any" = base ++ ".any" ∧
      buffMatch base = some ("frost_nova", "up")) :=
  ⟨by decide,
   (C7_any_strip_matches_base "buff.frost_nova.up.any" "frost_nova" "up").1
     (by decide)⟩

/-! ## `RotationDiagnosticProvider`

Embedding of the diagnostic provider (the file reproduced in the README):
`updateDiagnostics`, the three section collectors, `validateActionLine`,
`validateSpellNames`, `validateConfigAndVarReferences` and
`checkCommonTypos`.  Columns are integers because the source computes them
from `indexOf` results, which are `-1` when the needle is absent. -/

/-- `vscode.DiagnosticSeverity`. -/
inductive Severity
  | error
  | warning
  | information
deriving Repr, DecidableEq

/-- One `vscode.Diagnostic`: line, character range, message, severity. -/
structure Diagnostic where
  line : Nat
  colStart : Int
  colEnd : Int
  message : String
  severity : Severity
deriving Repr, DecidableEq

/-- First index at which `pat` occurs in `hay`, scanning from `i`. -/
def subIndexAux (pat : List Char) : List Char → Nat → Option Nat
  | [], i => if pat.isEmpty then some i else none
  | c :: t, i =>
      if pat.isPrefixOf (c :: t) then some i else subIndexAux pat t (i + 1)

/-- JS `String.prototype.indexOf`: the first occurrence or `-1`. -/
def jsIndexOf (hay pat : List Char) : Int :=
  match subIndexAux pat hay 0 with
  | some i => (i : Int)
  | none => -1

/-- JS `String.prototype.includes`. -/
def containsSub (hay pat : List Char) : Bool := (subIndexAux pat hay 0).isSome

/-- `/^NAME:\s*$/.test(line)`. -/
def headerLine (name : List Char) (line : List Char) : Bool :=
  (line.take (name.length + 1) == name ++ [Char.ofNat 58]) &&
    (line.drop (name.length + 1)).all isWS

/-- `/^[a-z_]+:\s*$/.test(line) && !line.startsWith(' ')`. -/
def rootKeyLine (line : List Char) : Bool :=
  (let seg := line.takeWhile isLowerUnd
   !seg.isEmpty &&
     (match line.drop seg.length with
      | c :: rest => c.toNat == 58 && rest.all isWS
      | [] => false)) &&
  !(match line with
    | c :: _ => c.toNat == 32
    | [] => false)

/-- `line.match(/^\s{2}(\w+):\s*$/)`: the captured identifier, if any. -/
def entryNameStrict (line : List Char) : Option String :=
  match line with
  | c1 :: c2 :: rest =>
      if isWS c1 && isWS c2 then
        let seg := rest.takeWhile isWordC
        if seg.isEmpty then none
        else
          match rest.drop seg.length with
          | c :: tail =>
              if c.toNat == 58 && tail.all isWS then some ⟨seg⟩ else none
          | [] => none
      else none
  | _ => none

/-- `line.match(/^\s{2}(\w+):/)`: as above but anything may follow the colon. -/
def entryNameLoose (line : List Char) : Option String :=
  match line with
  | c1 :: c2 :: rest =>
      if isWS c1 && isWS c2 then
        let seg := rest.takeWhile isWordC
        if seg.isEmpty then none
        else
          match rest.drop seg.length with
          | c :: _ => if c.toNat == 58 then some ⟨seg⟩ else none
          | [] => none
      else none
  | _ => none

/-- JS `Set.prototype.add`: insertion-ordered, deduplicating. -/
def addSet (s : List String) (x : String) : List String :=
  if s.contains x then s else s ++ [x]

/-- One line of the section scan shared by `collectDefinedLists`,
`collectDefinedConfigVars` and `collectDefinedVariables`: enter on the
section header, leave on any other root-level key, record entries while
inside. -/
def scanStep (secName : List Char) (entry : List Char → Option String)
    (st : Bool × List String) (text : List Char) : Bool × List String :=
  if headerLine secName text then (true, st.2)
  else if st.1 && rootKeyLine text then (false, st.2)
  else if st.1 then
    match entry text with
    | some n => (st.1, addSet st.2 n)
    | none => st
  else st

/-- The whole section scan: fold `scanStep` over the document's lines. -/
def collectSection (secName : List Char) (entry : List Char → Option String)
    (lines : List (List Char)) : List String :=
  (lines.foldl (scanStep secName entry) (false, [])).2

/-- `collectDefinedLists`. -/
def collectDefinedLists (lines : List (List Char)) : List String :=
  collectSection "lists".data entryNameStrict lines

/-- `collectDefinedConfigVars`. -/
def collectDefinedConfigVars (lines : List (List Char)) : List String :=
  collectSection "config".data entryNameStrict lines

/-- `collectDefinedVariables`. -/
def collectDefinedVariables (lines : List (List Char)) : List String :=
  collectSection "variables".data entryNameLoose lines

/-- All matches of `/\bKW(\w+)/g` (with `KW` like `config.`): pairs of match
index and captured identifier.  `prevWord` tracks whether the previous
character was a word character (for the `\b`); after a match the scan
resumes at the match end, as the JS `lastIndex` does. -/
def scanRefsAux (kw : List Char) : Nat → List Char → Nat → Bool →
    List (Nat × String)
  | 0, _, _, _ => []
  | fuel + 1, text, i, prevWord =>
      match text with
      | [] => []
      | c :: t =>
          if !prevWord && kw.isPrefixOf (c :: t) then
            let rest := (c :: t).drop kw.length
            let cap := rest.takeWhile isWordC
            if cap.isEmpty then scanRefsAux kw fuel t (i + 1) (isWordC c)
            else
              (i, ⟨cap⟩) ::
                scanRefsAux kw fuel (rest.drop cap.length)
                  (i + kw.length + cap.length) true
          else scanRefsAux kw fuel t (i + 1) (isWordC c)

/-- All matches of `/\bKW(\w+)/g` over a line. -/
def scanRefs (kw : List Char) (text : List Char) : List (Nat × String) :=
  scanRefsAux kw text.length text 0 false

/-- The shared-config allow-list of `validateConfigAndVarReferences`. -/
def sharedConfigVars : List String :=
  ["auto_target_enabled", "auto_target_range", "auto_target_delay",
   "auto_heal_enabled", "auto_heal_range",
   "interrupt_enabled", "interrupt_delay", "interrupt_threshold",
   "defensive_enabled", "defensive_threshold",
   "burst_enabled", "aoe_enabled", "aoe_threshold",
   "movement_threshold", "gcd_tolerance"]

/-- The `Available: ...` hint appended to unresolved config/var messages. -/
def availableHint (available : List String) : String :=
  if available.length > 0 then
    ". Available: " ++ String.intercalate ", " (available.take 5) ++
      (if available.length > 5 then "..." else "")
  else ""

/-- One unresolved `config.x` finding (severity warning). -/
def configRefFinding (lineNum : Nat) (definedConfigVars : List String)
    (m : Nat × String) : Option Diagnostic :=
  let varName := m.2
  if !definedConfigVars.contains varName && !sharedConfigVars.contains varName
  then
    let startIndex : Int := (m.1 : Int) + 7
    some ⟨lineNum, startIndex, startIndex + varName.length,
      "Config variable \"" ++ varName ++ "\" is not defined" ++
        availableHint definedConfigVars,
      .warning⟩
  else none

/-- One unresolved `var.x` finding (severity warning). -/
def varRefFinding (lineNum : Nat) (definedVariables : List String)
    (m : Nat × String) : Option Diagnostic :=
  let varName := m.2
  if !definedVariables.contains varName then
    let startIndex : Int := (m.1 : Int) + 4
    some ⟨lineNum, startIndex, startIndex + varName.length,
      "Variable \"" ++ varName ++ "\" is not defined" ++
        availableHint definedVariables,
      .warning⟩
  else none

/-- `validateConfigAndVarReferences`. -/
def validateConfigAndVarReferences (text : List Char) (lineNum : Nat)
    (definedConfigVars definedVariables : List String) : List Diagnostic :=
  (scanRefs "config.".data text).filterMap
    (configRefFinding lineNum definedConfigVars) ++
  (scanRefs "var.".data text).filterMap (varRefFinding lineNum definedVariables)

/-- `&` or `|`. -/
def isOpC (c : Char) : Bool := c.toNat == 38 || c.toNat == 124

/-- `text.match(/^\s*-\s*(.+)$/)`: the action content after the dash.  When
everything after the dash is whitespace, the greedy `\s*` backtracks one
character so that `(.+)` still matches; the content is then that last
whitespace character. -/
def actionContentOf (text : List Char) : Option (List Char) :=
  match text.dropWhile isWS with
  | c :: rest =>
      if c.toNat == 45 then
        let r2 := rest.dropWhile isWS
        if r2.isEmpty then
          if rest.isEmpty then none else some (rest.drop (rest.length - 1))
        else some r2
      else none
  | [] => none

/-- `/,if=\s*(,|$)/.test(content)`. -/
def testEmptyIf : List Char → Bool
  | [] => false
  | c :: t =>
      (",if=".data.isPrefixOf (c :: t) &&
        (match ((c :: t).drop 4).dropWhile isWS with
         | [] => true
         | d :: _ => d.toNat == 44)) ||
      testEmptyIf t

/-- `content.match(/[&|]{3,}/)`: the first run of three or more operator
characters (the matched text). -/
def findOpRun : List Char → Option (List Char)
  | [] => none
  | c :: t =>
      if isOpC c then
        let run := (c :: t).takeWhile isOpC
        if run.length ≥ 3 then some run else findOpRun t
      else findOpRun t

/-- `/[&|]\s*(,|$)/.test(content)`. -/
def testTrailingOp : List Char → Bool
  | [] => false
  | c :: t =>
      (isOpC c &&
        (match t.dropWhile isWS with
         | [] => true
         | d :: _ => d.toNat == 44)) ||
      testTrailingOp t

/-- `/,if=[&|]/.test(content)`. -/
def testLeadingOp : List Char → Bool
  | [] => false
  | c :: t =>
      (",if=".data.isPrefixOf (c :: t) &&
        (match (c :: t).drop 4 with
         | d :: _ => isOpC d
         | [] => false)) ||
      testLeadingOp t

/-- Case-insensitive literal prefix test (for the `/i` patterns). -/
def ciPrefix (pat : List Char) (l : List Char) : Bool :=
  (l.take pat.length).map jsLowerChar == pat

/-- `/\.up\s*=\s*true/i` (or `.down`) at one position: the property literal,
optional spaces, `=`, optional spaces, `true`. -/
def propEqTrueAt (propLit : List Char) (l : List Char) : Bool :=
  ciPrefix propLit l &&
    (match (l.drop propLit.length).dropWhile isWS with
     | e :: r2 => e.toNat == 61 && ciPrefix "true".data (r2.dropWhile isWS)
     | [] => false)

/-- `/\.PROP\s*=\s*true/i.test(content)`. -/
def testPropEqTrue (propLit : List Char) : List Char → Bool
  | [] => false
  | c :: t => propEqTrueAt propLit (c :: t) || testPropEqTrue propLit t

/-- `/^\s*-\s*,/.test(text)`. -/
def testMissingName (text : List Char) : Bool :=
  match text.dropWhile isWS with
  | c :: rest =>
      c.toNat == 45 &&
        (match rest.dropWhile isWS with
         | d :: _ => d.toNat == 44
         | [] => false)
  | [] => false

/-- `content.match(/\bcall=(\w*)/)`: the capture (possibly empty) of the
first boundary-preceded `call=`. -/
def findCallAliasAux : List Char → Bool → Option String
  | [], _ => none
  | c :: t, prevWord =>
      if !prevWord && "call=".data.isPrefixOf (c :: t) then
        some ⟨((c :: t).drop 5).takeWhile isWordC⟩
      else findCallAliasAux t (isWordC c)

/-- `content.match(/\bcall=(\w*)/)`. -/
def findCallAlias (content : List Char) : Option String :=
  findCallAliasAux content false

/-- The remainder after the first `call_action_list`/`run_action_list`
literal, if any (the `(?:call|run)_action_list` part of the list regex). -/
def findActionListTail : List Char → Option (List Char)
  | [] => none
  | c :: t =>
      if "call_action_list".data.isPrefixOf (c :: t) then
        some ((c :: t).drop 16)
      else if "run_action_list".data.isPrefixOf (c :: t) then
        some ((c :: t).drop 15)
      else findActionListTail t

/-- The capture of the *last* `name=(\w+)` occurrence (the greedy `.*` makes
the regex bind the final `name=`). -/
def lastNameCapture : List Char → Option String
  | [] => none
  | c :: t =>
      match lastNameCapture t with
      | some r => some r
      | none =>
          if "name=".data.isPrefixOf (c :: t) then
            let cap := ((c :: t).drop 5).takeWhile isWordC
            if cap.isEmpty then none else some ⟨cap⟩
          else none

/-- `content.match(/(?:call|run)_action_list.*name=(\w+)/)`: the captured
list name. -/
def findListRef (content : List Char) : Option String :=
  match findActionListTail content with
  | none => none
  | some rest => lastNameCapture rest

/-- The shared-list allow-list of the list-reference check. -/
def sharedLists : List String :=
  ["spell_queue", "sanity_checks", "auto_target", "auto_heal",
   "variables", "precombat", "cooldowns", "defensives", "interrupts"]

/-- The referenced list name of the list-reference check at the end of
`validateActionLine` (lines 389-415): the regex capture, or the non-empty
`call=` capture as fallback. -/
def listNameOf (content : List Char) : Option String :=
  match findListRef content with
  | some n => some n
  | none =>
      match findCallAlias content with
      | some cap => if cap.isEmpty then none else some cap
      | none => none

/-- The list-reference finding itself. -/
def listRefFindings (text content : List Char) (lineNum : Nat)
    (definedLists : List String) : List Diagnostic :=
  match listNameOf content with
  | none => []
  | some listName =>
      if !definedLists.contains listName && !sharedLists.contains listName then
        let nameIndex : Int := jsIndexOf text ("name=".data ++ listName.data) + 5
        [⟨lineNum, nameIndex, nameIndex + listName.length,
          "Action list \"" ++ listName ++ "\" is not defined" ++
            (if definedLists.length > 0 then
              ". Available lists: " ++ String.intercalate ", " definedLists
            else ""),
          .error⟩]
      else []

/-- `validateActionLine`: the eleven checks, appended in source order. -/
def validateActionLine (text : List Char) (lineNum : Nat)
    (definedLists : List String) : List Diagnostic :=
  match actionContentOf text with
  | none => []
  | some content =>
      (let o := content.countP (fun c => c.toNat == 40)
       let cl := content.countP (fun c => c.toNat == 41)
       if o ≠ cl then
         [⟨lineNum, 0, text.length,
           "Unbalanced parentheses: " ++ toString o ++ " opening, " ++
             toString cl ++ " closing", .error⟩]
       else []) ++
      (if testEmptyIf content then
         let ifIndex := jsIndexOf text ",if=".data
         [⟨lineNum, ifIndex, ifIndex + 4, "Empty condition after if=", .error⟩]
       else []) ++
      (match findOpRun content with
       | some run =>
           let index := jsIndexOf text run
           [⟨lineNum, index, index + run.length, "Invalid operator sequence",
             .error⟩]
       | none => []) ++
      (if testTrailingOp content then
         [⟨lineNum, 0, text.length, "Condition ends with an operator",
           .warning⟩]
       else []) ++
      (if testLeadingOp content then
         let ifIndex := jsIndexOf text ",if=".data
         [⟨lineNum, ifIndex, ifIndex + 5,
           "Condition starts with an operator (use ! for negation)",
           .warning⟩]
       else []) ++
      (if testPropEqTrue ".up".data content then
         [⟨lineNum, 0, text.length,
           ".up already returns boolean, no need for =true (use just .up)",
           .information⟩]
       else []) ++
      (if testPropEqTrue ".down".data content then
         [⟨lineNum, 0, text.length,
           ".down already returns boolean, no need for =true (use just .down)",
           .information⟩]
       else []) ++
      (if testMissingName text then
         [⟨lineNum, 0, text.length, "Missing spell name before comma",
           .error⟩]
       else []) ++
      (if ("call_action_list".data.isPrefixOf content ||
            "run_action_list".data.isPrefixOf content) &&
          !containsSub content "name=".data then
         [⟨lineNum, 0, text.length,
           "call_action_list/run_action_list requires name= parameter",
           .error⟩]
       else []) ++
      (match findCallAlias content with
       | some cap =>
           if cap.isEmpty then
             [⟨lineNum, 0, text.length, "call= requires a list name", .error⟩]
           else []
       | none => []) ++
      listRefFindings text content lineNum definedLists

/-! ### `validateSpellNames` -/

/-- Generic `/g` scan driver for the expression patterns (all of which start
with `\b`): at each position with a non-word previous character, try the
pattern's `attempt` function; on success record `(index, matched text,
capture)` and resume at the match end. -/
def scanPattern (attempt : List Char → Option (List Char × String)) :
    Nat → List Char → Nat → Bool → List (Nat × List Char × String)
  | 0, _, _, _ => []
  | fuel + 1, text, i, prevWord =>
      match text with
      | [] => []
      | c :: t =>
          if !prevWord then
            match attempt (c :: t) with
            | some (matched, cap) =>
                (i, matched, cap) ::
                  scanPattern attempt fuel ((c :: t).drop matched.length)
                    (i + matched.length)
                    (match matched.getLast? with
                     | some lc => isWordC lc
                     | none => false)
            | none => scanPattern attempt fuel t (i + 1) (isWordC c)
          else scanPattern attempt fuel t (i + 1) (isWordC c)

/-- `/\bKW(\w+)\./`: keyword, capture, then a literal dot (which is part of
the matched text). -/
def attemptPrefCapDot (kw : List Char) (l : List Char) :
    Option (List Char × String) :=
  if kw.isPrefixOf l then
    let cap := (l.drop kw.length).takeWhile isWordC
    if cap.isEmpty then none
    else
      match l.drop (kw.length + cap.length) with
      | c :: _ =>
          if c.toNat == 46 then some (kw ++ cap ++ [Char.ofNat 46], ⟨cap⟩)
          else none
      | [] => none
  else none

/-- `/\bKW(\w+)/`: keyword then capture. -/
def attemptPrefCap (kw : List Char) (l : List Char) :
    Option (List Char × String) :=
  if kw.isPrefixOf l then
    let cap := (l.drop kw.length).takeWhile isWordC
    if cap.isEmpty then none else some (kw ++ cap, ⟨cap⟩)
  else none

/-- `/\bprev_gcd\.\d\.(\w+)/`. -/
def attemptPrevGcd (l : List Char) : Option (List Char × String) :=
  if "prev_gcd.".data.isPrefixOf l then
    match l.drop 9 with
    | d :: rest =>
        if isDigitC d then
          match rest with
          | dot :: rest2 =>
              if dot.toNat == 46 then
                let cap := rest2.takeWhile isWordC
                if cap.isEmpty then none
                else
                  some ("prev_gcd.".data ++ d :: Char.ofNat 46 :: cap, ⟨cap⟩)
              else none
          | [] => none
        else none
    | [] => none
  else none

/-- First alternative of an alternation that is a literal prefix of `l`
(the alternatives are pairwise non-prefix, so at most one applies). -/
def firstAlt (alts : List (List Char)) (l : List Char) : Option (List Char) :=
  alts.find? (fun a => a.isPrefixOf l)

/-- `/\b(?:player|target|focus|mouseover)\.MID\.(?:up|down|remains|stacks)\((\w+)\)/`. -/
def attemptUnitFun (mid : List Char) (l : List Char) :
    Option (List Char × String) :=
  match firstAlt ["player".data, "target".data, "focus".data,
      "mouseover".data] l with
  | none => none
  | some u =>
      let r1 := l.drop u.length
      if mid.isPrefixOf r1 then
        let r2 := r1.drop mid.length
        match firstAlt ["up".data, "down".data, "remains".data,
            "stacks".data] r2 with
        | none => none
        | some p =>
            match r2.drop p.length with
            | c :: rest3 =>
                if c.toNat == 40 then
                  let cap := rest3.takeWhile isWordC
                  if cap.isEmpty then none
                  else
                    match rest3.drop cap.length with
                    | cc :: _ =>
                        if cc.toNat == 41 then
                          some (u ++ mid ++ p ++ Char.ofNat 40 ::
                            (cap ++ [Char.ofNat 41]), ⟨cap⟩)
                        else none
                    | [] => none
                else none
            | [] => none
      else none

/-- `/\bPRE\((\w+)\)/` for a literal `PRE(` prefix. -/
def attemptFunCall (pre : List Char) (l : List Char) :
    Option (List Char × String) :=
  if pre.isPrefixOf l then
    let cap := (l.drop pre.length).takeWhile isWordC
    if cap.isEmpty then none
    else
      match l.drop (pre.length + cap.length) with
      | c :: _ =>
          if c.toNat == 41 then some (pre ++ cap ++ [Char.ofNat 41], ⟨cap⟩)
          else none
      | [] => none
  else none

/-- `/\bplayer\.prev_gcd_[1-5]\((\w+)\)/`. -/
def attemptPrevGcdFun (l : List Char) : Option (List Char × String) :=
  if "player.prev_gcd_".data.isPrefixOf l then
    match l.drop 16 with
    | d :: rest =>
        if 49 ≤ d.toNat && d.toNat ≤ 53 then
          match rest with
          | c :: rest2 =>
              if c.toNat == 40 then
                let cap := rest2.takeWhile isWordC
                if cap.isEmpty then none
                else
                  match rest2.drop cap.length with
                  | cc :: _ =>
                      if cc.toNat == 41 then
                        some ("player.prev_gcd_".data ++ d :: Char.ofNat 40 ::
                          (cap ++ [Char.ofNat 41]), ⟨cap⟩)
                      else none
                  | [] => none
              else none
          | [] => none
        else none
    | [] => none
  else none

/-- The expression-pattern catalog of `validateSpellNames` (lines 422-439),
in source order. -/
def spellPatterns : List (String × (List Char → Option (List Char × String))) :=
  [("buff", attemptPrefCapDot "buff.".data),
   ("debuff", attemptPrefCapDot "debuff.".data),
   ("dot", attemptPrefCapDot "dot.".data),
   ("cooldown", attemptPrefCapDot "cooldown.".data),
   ("totem", attemptPrefCapDot "totem.".data),
   ("talent", attemptPrefCap "talent.".data),
   ("usable", attemptPrefCap "usable.".data),
   ("active_dot", attemptPrefCap "active_dot.".data),
   ("nameplates.debuff", attemptPrefCapDot "nameplates.debuff.".data),
   ("nameplates.buff", attemptPrefCapDot "nameplates.buff.".data),
   ("prev_gcd", attemptPrevGcd),
   ("buff function", attemptUnitFun ".buff.".data),
   ("debuff function", attemptUnitFun ".debuff.".data),
   ("talent function", attemptFunCall "player.talent(".data),
   ("prev_gcd function", attemptPrevGcdFun)]

/-- The special-action allow-list (lines 446-456). -/
def specialActions : List String :=
  ["call_action_list", "run_action_list", "return", "stop_casting",
   "queue_spell", "trinket_1", "trinket_2", "healthstone", "health_potion",
   "mana_potion", "combat_potion", "target_enemy", "attack_target",
   "weapon_onuse", "wrist_onuse", "helm_onuse", "cloak_onuse", "belt_onuse",
   "interact_target", "interact_mouseover", "loot_a_rang", "augment_rune",
   "focus_party1", "focus_party2", "focus_party3", "focus_party4",
   "target_mouseover", "target_focus", "focus_target", "focus_mouseover",
   "call"] ++
  (List.range 40).map (fun i => "focus_raid" ++ toString (i + 1))

/-- `/^\d+$/.test(s)`. -/
def isNumericStr (s : String) : Bool :=
  !s.data.isEmpty && s.data.all isDigitC

/-- The `Did you mean` suffix built from `findSimilar`. -/
def didYouMean (db : SpellDB) (name : String) : String :=
  let similar := findSimilar db name 2
  if similar.length > 0 then
    ". Did you mean: " ++
      String.intercalate ", " (similar.map SpellInfo.normalizedName) ++ "?"
  else ""

/-- `text.match(/^\s*-\s*(\w+)/)`: the leading action keyword. -/
def actionWordOf (text : List Char) : Option String :=
  match text.dropWhile isWS with
  | c :: rest =>
      if c.toNat == 45 then
        let cap := (rest.dropWhile isWS).takeWhile isWordC
        if cap.isEmpty then none else some ⟨cap⟩
      else none
  | [] => none

/-- The action-keyword check of `validateSpellNames` (lines 442-473):
numeric IDs and special actions are exempt; unknown names get a warning. -/
def actionSpellFindings (db : SpellDB) (text : List Char) (lineNum : Nat) :
    List Diagnostic :=
  match actionWordOf text with
  | none => []
  | some spellName =>
      if isNumericStr spellName then []
      else if specialActions.contains spellName then []
      else if isValidSpell db spellName then []
      else
        let startIndex := jsIndexOf text spellName.data
        [⟨lineNum, startIndex, startIndex + spellName.length,
          "Unknown spell: \"" ++ spellName ++ "\"" ++ didYouMean db spellName,
          .warning⟩]

/-- One finding of the expression-pattern loop (lines 476-502): template
placeholders and numeric captures are skipped, known names pass, anything
else is a warning. -/
def exprFinding (db : SpellDB) (lineNum : Nat) (ptype : String)
    (m : Nat × List Char × String) : Option Diagnostic :=
  let name := m.2.2
  if name == "SPELL" || name == "TALENT" || name == "VARNAME" then none
  else if isNumericStr name then none
  else if isValidSpell db name then none
  else
    let startIndex : Int := (m.1 : Int) + jsIndexOf m.2.1 name.data
    some ⟨lineNum, startIndex, startIndex + name.length,
      "Unknown spell in " ++ ptype ++ ": \"" ++ name ++ "\"" ++
        didYouMean db name,
      .warning⟩

/-- `validateSpellNames`. -/
def validateSpellNames (db : SpellDB) (text : List Char) (lineNum : Nat) :
    List Diagnostic :=
  if !db.loaded then []
  else
    actionSpellFindings db text lineNum ++
    (spellPatterns.map (fun pt =>
      (scanPattern pt.2 text.length text 0 false).filterMap
        (exprFinding db lineNum pt.1))).flatten

/-! ### `checkCommonTypos` -/

/-- A plain literal (used for the misspelling patterns such as `\bbuf\.`). -/
def attemptLit (kw : List Char) (l : List Char) : Option (List Char × String) :=
  if kw.isPrefixOf l then some (kw, "") else none

/-- A literal with a trailing `\b` (e.g. `\bhealth_pct\b`). -/
def attemptLitTB (kw : List Char) (l : List Char) :
    Option (List Char × String) :=
  if kw.isPrefixOf l then
    match l.drop kw.length with
    | c :: _ => if isWordC c then none else some (kw, "")
    | [] => some (kw, "")
  else none

/-- A case-insensitive literal with a trailing `\b` (for `/\band\b/gi` and
`/\bor\b/gi`). -/
def attemptCIWordTB (kw : List Char) (l : List Char) :
    Option (List Char × String) :=
  if ciPrefix kw l then
    match l.drop kw.length with
    | c :: _ => if isWordC c then none else some (l.take kw.length, "")
    | [] => some (l.take kw.length, "")
  else none

/-- `/\bstack\s*>/`. -/
def attemptStackGt (l : List Char) : Option (List Char × String) :=
  if "stack".data.isPrefixOf l then
    let rest := l.drop 5
    let ws := rest.takeWhile isWS
    match rest.drop ws.length with
    | c :: _ =>
        if c.toNat == 62 then some ("stack".data ++ ws ++ [c], "") else none
    | [] => none
  else none

/-- `/\bnot\s+\w/i`: `not`, at least one space, one word character (all part
of the matched text). -/
def attemptNotWs (l : List Char) : Option (List Char × String) :=
  if ciPrefix "not".data l then
    let rest := l.drop 3
    let ws := rest.takeWhile isWS
    if ws.isEmpty then none
    else
      match rest.drop ws.length with
      | c :: _ =>
          if isWordC c then some (l.take 3 ++ ws ++ [c], "") else none
      | [] => none
  else none

/-- `/==+/` has no word boundary, so it gets its own `/g` driver. -/
def scanEqRuns : Nat → List Char → Nat → List (Nat × List Char)
  | 0, _, _ => []
  | fuel + 1, text, i =>
      match text with
      | [] => []
      | c :: t =>
          if c.toNat == 61 then
            let run := (c :: t).takeWhile (fun d => d.toNat == 61)
            if run.length ≥ 2 then
              (i, run) :: scanEqRuns fuel ((c :: t).drop run.length)
                (i + run.length)
            else scanEqRuns fuel t (i + 1)
          else scanEqRuns fuel t (i + 1)

/-- The boundary-anchored typo patterns of `checkCommonTypos` (lines
506-521) in source order, except `/==+/` which is handled separately. -/
def typoPatterns :
    List ((List Char → Option (List Char × String)) × String × Severity) :=
  [(attemptLit "buf.".data, "Did you mean \"buff.\"?", .warning),
   (attemptLit "debbuf.".data, "Did you mean \"debuff.\"?", .warning),
   (attemptLit "cooldonw.".data, "Did you mean \"cooldown.\"?", .warning),
   (attemptLit "talant.".data, "Did you mean \"talent.\"?", .warning),
   (attemptLitTB "health_pct".data, "Did you mean \"health.pct\"?", .warning),
   (attemptLitTB "target_health".data,
     "Did you mean \"target.health.pct\"?", .warning),
   (attemptLitTB "player_moving".data,
     "Did you mean \"player.moving\"?", .warning),
   (attemptLitTB "active_enemie".data,
     "Did you mean \"active_enemies\"?", .warning),
   (attemptLitTB "remaning".data, "Did you mean \"remains\"?", .warning),
   (attemptStackGt, "Did you mean \".stack>\"?", .information)]

/-- The two final word-operator patterns (after `/==+/` in the source list). -/
def typoPatternsTail :
    List ((List Char → Option (List Char × String)) × String × Severity) :=
  [(attemptCIWordTB "and".data, "Use & for AND operator", .warning),
   (attemptCIWordTB "or".data, "Use | for OR operator", .warning),
   (attemptNotWs, "Use ! for NOT operator", .warning)]

/-- `checkCommonTypos`: every typo pattern contributes one finding per
match, in pattern order. -/
def checkCommonTypos (text : List Char) (lineNum : Nat) : List Diagnostic :=
  (typoPatterns.map (fun tp =>
    (scanPattern tp.1 text.length text 0 false).map (fun m =>
      (⟨lineNum, (m.1 : Int), (m.1 : Int) + m.2.1.length, tp.2.1, tp.2.2⟩ :
        Diagnostic)))).flatten ++
  (scanEqRuns text.length text 0).map (fun m =>
    (⟨lineNum, (m.1 : Int), (m.1 : Int) + m.2.length,
      "Use single = for equality", .information⟩ : Diagnostic)) ++
  (typoPatternsTail.map (fun tp =>
    (scanPattern tp.1 text.length text 0 false).map (fun m =>
      (⟨lineNum, (m.1 : Int), (m.1 : Int) + m.2.1.length, tp.2.1, tp.2.2⟩ :
        Diagnostic)))).flatten

/-- The per-line work of `updateDiagnostics` (lines 86-108). -/
def lineDiagnostics (db : SpellDB) (definedLists definedConfigVars
    definedVariables : List String) (text : List Char) (lineNum : Nat) :
    List Diagnostic :=
  let tr := trimWS text
  if (match tr with
      | c :: _ => c.toNat == 35
      | [] => true) then []
  else
    (if (match text.dropWhile isWS with
         | c :: _ => c.toNat == 45
         | [] => false) then
      validateActionLine text lineNum definedLists
    else []) ++
    validateSpellNames db text lineNum ++
    validateConfigAndVarReferences text lineNum definedConfigVars
      definedVariables ++
    checkCommonTypos text lineNum

/-- `updateDiagnostics`: collect the three symbol sets, then scan each line
in order, appending every check's findings to one accumulator. -/
def updateDiagnostics (db : SpellDB) (docLines : List String) :
    List Diagnostic :=
  let linesData := docLines.map String.data
  let definedLists := collectDefinedLists linesData
  let definedConfigVars := collectDefinedConfigVars linesData
  let definedVariables := collectDefinedVariables linesData
  ((List.range docLines.length).map (fun lineNum =>
    lineDiagnostics db definedLists definedConfigVars definedVariables
      (linesData.getD lineNum []) lineNum)).flatten

/-! ## C3: shape checks on the two scenario lines -/

/-- Counterexample for C3 as frozen: on `  - spell,if=energy>` the validator
emits *no* findings at all — the trailing-operator check `/[&|]\s*(,|$)/`
only fires on `&` and `|`, never on a dangling comparison operator — so
there is no single warning for the trailing operator. -/
theorem C3_trailing_operator_counterexample :
    ¬ (∃ d, updateDiagnostics initialDB ["  - spell,if=energy>"] = [d] ∧
        d.severity = Severity.warning) := by
  rintro ⟨d, hd, -⟩
  have h0 : updateDiagnostics initialDB ["  - spell,if=energy>"] = [] := by
    decide
  rw [h0] at hd
  cases hd

/-- C3 (corrected): `  - spell,if=energy>` produces no findings (the
dangling `>` is not detected); a line actually ending its condition with a
boolean operator, `  - spell,if=energy&`, produces exactly one warning for
the trailing operator; and `  - spell,if=(energy>50` produces exactly one
error for unbalanced parentheses (1 opening, 0 closing). -/
theorem C3_shape_checks_amended :
    updateDiagnostics initialDB ["  - spell,if=energy>"] = [] ∧
    updateDiagnostics initialDB ["  - spell,if=energy&"] =
      [⟨0, 0, 20, "Condition ends with an operator", Severity.warning⟩] ∧
    updateDiagnostics initialDB ["  - spell,if=(energy>50"] =
      [⟨0, 0, 23, "Unbalanced parentheses: 1 opening, 0 closing",
        Severity.error⟩] := by
  refine ⟨by decide, by decide, by decide⟩

/-! ## C2: severities of unresolved-reference findings -/

theorem exprFinding_severity {db : SpellDB} {n : Nat} {ty : String}
    {m : Nat × List Char × String} {d : Diagnostic}
    (h : exprFinding db n ty m = some d) : d.severity = Severity.warning := by
  rw [exprFinding] at h
  dsimp only at h
  split at h
  · cases h
  · split at h
    · cases h
    · split at h
      · cases h
      · injection h with h
        rw [← h]

theorem actionSpellFindings_severity {db : SpellDB} {text : List Char}
    {n : Nat} {d : Diagnostic} (h : d ∈ actionSpellFindings db text n) :
    d.severity = Severity.warning := by
  rw [actionSpellFindings] at h
  split at h
  · cases h
  · split at h
    · cases h
    · split at h
      · cases h
      · split at h
        · cases h
        · simp only [List.mem_singleton] at h
          rw [h]

theorem validateSpellNames_severity {db : SpellDB} {text : List Char}
    {n : Nat} {d : Diagnostic} (h : d ∈ validateSpellNames db text n) :
    d.severity = Severity.warning := by
  rw [validateSpellNames] at h
  split at h
  · cases h
  · rw [List.mem_append] at h
    rcases h with h | h
    · exact actionSpellFindings_severity h
    · rw [List.mem_flatten] at h
      obtain ⟨l, hl, hdl⟩ := h
      rw [List.mem_map] at hl
      obtain ⟨pt, -, hpt⟩ := hl
      rw [← hpt] at hdl
      rw [List.mem_filterMap] at hdl
      obtain ⟨m, -, hm⟩ := hdl
      exact exprFinding_severity hm

theorem configRefFinding_severity {n : Nat} {cs : List String}
    {m : Nat × String} {d : Diagnostic} (h : configRefFinding n cs m = some d) :
    d.severity = Severity.warning := by
  rw [configRefFinding] at h
  dsimp only at h
  split at h
  · injection h with h
    rw [← h]
  · cases h

theorem varRefFinding_severity {n : Nat} {vs : List String} {m : Nat × String}
    {d : Diagnostic} (h : varRefFinding n vs m = some d) :
    d.severity = Severity.warning := by
  rw [varRefFinding] at h
  dsimp only at h
  split at h
  · injection h with h
    rw [← h]
  · cases h

theorem validateConfigAndVar_severity {text : List Char} {n : Nat}
    {cs vs : List String} {d : Diagnostic}
    (h : d ∈ validateConfigAndVarReferences text n cs vs) :
    d.severity = Severity.warning := by
  rw [validateConfigAndVarReferences, List.mem_append] at h
  rcases h with h | h <;>
    · rw [List.mem_filterMap] at h
      obtain ⟨m, -, hm⟩ := h
      first
        | exact configRefFinding_severity hm
        | exact varRefFinding_severity hm

theorem listRefFindings_severity {text content : List Char} {n : Nat}
    {L : List String} {d : Diagnostic} (h : d ∈ listRefFindings text content n L) :
    d.severity = Severity.error := by
  rw [listRefFindings] at h
  split at h
  · cases h
  · split at h
    · simp only [List.mem_singleton] at h
      rw [h]
    · cases h

/-- C2 (corrected): unresolved spell-name, config-key and variable findings
are always warnings, but unresolved action-list names — also unresolved
references — are *errors*, so the claim's "never errors" fails. -/
theorem C2_unresolved_reference_severities_amended :
    (∀ (db : SpellDB) (text : List Char) (n : Nat) (d : Diagnostic),
      d ∈ validateSpellNames db text n → d.severity = Severity.warning) ∧
    (∀ (text : List Char) (n : Nat) (cs vs : List String) (d : Diagnostic),
      d ∈ validateConfigAndVarReferences text n cs vs →
        d.severity = Severity.warning) ∧
    (∀ (text content : List Char) (n : Nat) (L : List String) (d : Diagnostic),
      d ∈ listRefFindings text content n L → d.severity = Severity.error) :=
  ⟨fun _ _ _ _ h => validateSpellNames_severity h,
   fun _ _ _ _ _ h => validateConfigAndVar_severity h,
   fun _ _ _ _ _ h => listRefFindings_severity h⟩

/-- Counterexample for C2 as frozen: a document whose only finding is an
unresolved action-list reference, and that finding's severity is `error`,
not `warning`. -/
theorem C2_unresolved_reference_counterexample :
    updateDiagnostics initialDB ["  - call_action_list,name=foo"] =
      [⟨0, 26, 29, "Action list \"foo\" is not defined", Severity.error⟩] ∧
    Severity.error ≠ Severity.warning := by
  exact ⟨by decide, by decide⟩

/-- Witness for C2: the amended theorem applied to one concrete unresolved
config reference (a warning) and one concrete unresolved list reference (an
error). -/
theorem C2_unresolved_reference_severities_witness :
    (⟨0, 16, 27, "Config variable \"unknown_key\" is not defined",
        Severity.warning⟩ : Diagnostic).severity = Severity.warning ∧
    (⟨0, 26, 29, "Action list \"foo\" is not defined",
        Severity.error⟩ : Diagnostic).severity = Severity.error :=
  ⟨C2_unresolved_reference_severities_amended.2.1
      "  - x,if=config.unknown_key>0".data 0 [] [] _ (by decide),
   C2_unresolved_reference_severities_amended.2.2
      "  - call_action_list,name=foo".data "call_action_list,name=foo".data 0 []
      _ (by decide)⟩

/-! ## C9: template placeholders and numeric captures are exempt -/

/-- Captures the expression-pattern loop does *not* skip. -/
def keepCapture (m : Nat × List Char × String) : Bool :=
  !(m.2.2 == "SPELL" || m.2.2 == "TALENT" || m.2.2 == "VARNAME" ||
    isNumericStr m.2.2)

theorem filterMap_filter_none {α β : Type} (f : α → Option β) (p : α → Bool)
    (h : ∀ a, p a = false → f a = none) :
    ∀ l : List α, l.filterMap f = (l.filter p).filterMap f := by
  intro l
  induction l with
  | nil => rfl
  | cons a t ih =>
    cases hp : p a
    · simp [List.filter_cons, hp, List.filterMap_cons, h a hp, ih]
    · simp [List.filter_cons, hp, List.filterMap_cons, ih]

/-- C9 (confirmed): a captured name equal to a placeholder literal (`SPELL`,
`TALENT`, `VARNAME`) or consisting only of digits never produces an
unknown-spell finding from the expression-pattern loop — dropping those
matches leaves `validateSpellNames` unchanged. -/
theorem C9_placeholder_numeric_exempt :
    ∀ (db : SpellDB) (text : List Char) (lineNum : Nat),
      (∀ (ptype : String) (m : Nat × List Char × String),
        keepCapture m = false → exprFinding db lineNum ptype m = none) ∧
      validateSpellNames db text lineNum =
        (if !db.loaded then []
         else
           actionSpellFindings db text lineNum ++
           (spellPatterns.map (fun pt =>
             ((scanPattern pt.2 text.length text 0 false).filter
               keepCapture).filterMap (exprFinding db lineNum pt.1))).flatten) := by
  intro db text lineNum
  have hskip : ∀ (ptype : String) (m : Nat × List Char × String),
      keepCapture m = false → exprFinding db lineNum ptype m = none := by
    intro ptype m h
    simp only [keepCapture, Bool.not_eq_false', Bool.or_eq_true,
      beq_iff_eq] at h
    rw [exprFinding]
    dsimp only
    rcases h with ((h | h) | h) | h
    · rw [if_pos (by simp [h])]
    · rw [if_pos (by simp [h])]
    · rw [if_pos (by simp [h])]
    · rw [if_neg ?_]
      · rw [if_pos h]
      · intro hcontra
        -- a purely numeric capture cannot be one of the placeholder literals
        simp only [Bool.or_eq_true, beq_iff_eq] at hcontra
        rcases hcontra with (hc | hc) | hc <;> rw [hc] at h <;>
          exact absurd h (by decide)
  refine ⟨hskip, ?_⟩
  rw [validateSpellNames]
  by_cases hl : db.loaded
  · simp only [hl, Bool.not_true, Bool.false_eq_true, if_false]
    congr 1
    congr 1
    apply List.map_congr_left
    intro pt _
    exact filterMap_filter_none _ keepCapture (fun m hm => hskip pt.1 m hm) _
  · simp only [Bool.not_eq_true] at hl
    simp [hl]

/-- Witness for C9: a placeholder capture and a numeric capture each yield
no finding. -/
theorem C9_placeholder_numeric_exempt_witness :
    exprFinding exampleDB 0 "buff" (5, "buff.SPELL.".data, "SPELL") = none ∧
    exprFinding exampleDB 0 "buff" (5, "buff.123.".data, "123") = none :=
  ⟨(C9_placeholder_numeric_exempt exampleDB "buff.SPELL.".data 0).1 "buff"
      (5, "buff.SPELL.".data, "SPELL") (by decide),
   (C9_placeholder_numeric_exempt exampleDB "buff.123.".data 0).1 "buff"
      (5, "buff.123.".data, "123") (by decide)⟩

/-! ## Section-scan lemmas for C5 and C8 -/

/-- The in-section flag transition of `scanStep` (it ignores the
accumulator). -/
def flagStep (secName : List Char) (st : Bool) (text : List Char) : Bool :=
  if headerLine secName text then true
  else if st && rootKeyLine text then false
  else st

/-- The scanner's in-section flag before processing line `k`. -/
def sectionFlagBefore (secName : List Char) (entry : List Char → Option String)
    (lines : List (List Char)) (k : Nat) : Bool :=
  ((lines.take k).foldl (scanStep secName entry) (false, [])).1

theorem scanStep_fst (secName : List Char) (entry : List Char → Option String)
    (st : Bool × List String) (l : List Char) :
    (scanStep secName entry st l).1 = flagStep secName st.1 l := by
  rw [scanStep, flagStep]
  by_cases h1 : headerLine secName l = true
  · rw [if_pos h1, if_pos h1]
  · rw [if_neg h1, if_neg h1]
    by_cases h2 : (st.1 && rootKeyLine l) = true
    · rw [if_pos h2, if_pos h2]
    · rw [if_neg h2, if_neg h2]
      by_cases h3 : st.1 = true
      · rw [if_pos h3]
        cases entry l <;> rfl
      · rw [if_neg h3]

theorem foldl_scanStep_fst (secName : List Char)
    (entry : List Char → Option String) :
    ∀ (lines : List (List Char)) (st : Bool × List String),
      (lines.foldl (scanStep secName entry) st).1 =
        lines.foldl (flagStep secName) st.1 := by
  intro lines
  induction lines with
  | nil => intro st; rfl
  | cons l rest ih =>
    intro st
    rw [List.foldl_cons, List.foldl_cons, ih, scanStep_fst]

theorem mem_addSet_self (s : List String) (x : String) : x ∈ addSet s x := by
  rw [addSet]
  by_cases h : s.contains x
  · rw [if_pos h]
    exact List.mem_of_elem_eq_true h
  · rw [if_neg h]
    simp

theorem mem_addSet_of_mem {s : List String} {x : String} (y : String)
    (h : x ∈ s) : x ∈ addSet s y := by
  rw [addSet]
  by_cases hy : s.contains y
  · rw [if_pos hy]; exact h
  · rw [if_neg hy]; simp [h]

/-- Recorded names survive the rest of the scan. -/
theorem scan_acc_mono (secName : List Char) (entry : List Char → Option String) :
    ∀ (lines : List (List Char)) (st : Bool × List String) (name : String),
      name ∈ st.2 → name ∈ (lines.foldl (scanStep secName entry) st).2 := by
  intro lines
  induction lines with
  | nil => intro st name h; exact h
  | cons l rest ih =>
    intro st name h
    rw [List.foldl_cons]
    apply ih
    rw [scanStep]
    by_cases h1 : headerLine secName l = true
    · rw [if_pos h1]; exact h
    · rw [if_neg h1]
      by_cases h2 : (st.1 && rootKeyLine l) = true
      · rw [if_pos h2]; exact h
      · rw [if_neg h2]
        by_cases h3 : st.1 = true
        · rw [if_pos h3]
          cases entry l with
          | none => exact h
          | some n => exact mem_addSet_of_mem n h
        · rw [if_neg h3]; exact h

/-- Once inside, the flag stays up while no root-level key occurs. -/
theorem flag_stays_true (secName : List Char) :
    ∀ (seg : List (List Char)),
      (∀ l ∈ seg, rootKeyLine l = false) →
      seg.foldl (flagStep secName) true = true := by
  intro seg
  induction seg with
  | nil => intro _; rfl
  | cons l rest ih =>
    intro h
    rw [List.foldl_cons]
    have hstep : flagStep secName true l = true := by
      rw [flagStep]
      by_cases h1 : headerLine secName l = true
      · rw [if_pos h1]
      · rw [if_neg h1, if_neg (by simp [h l (by simp)])]
    rw [hstep]
    exact ih (fun l' hl' => h l' (by simp [hl']))

/-- The flag stays down while the header does not recur. -/
theorem flag_stays_false (secName : List Char) :
    ∀ (seg : List (List Char)),
      (∀ l ∈ seg, headerLine secName l = false) →
      seg.foldl (flagStep secName) false = false := by
  intro seg
  induction seg with
  | nil => intro _; rfl
  | cons l rest ih =>
    intro h
    rw [List.foldl_cons]
    have hstep : flagStep secName false l = false := by
      rw [flagStep, if_neg (by simp [h l (by simp)])]
      rw [if_neg (by simp)]
    rw [hstep]
    exact ih (fun l' hl' => h l' (by simp [hl']))

/-- Any root-level key other than the section header pulls the flag down. -/
theorem flagStep_exit (secName : List Char) (st : Bool) {l : List Char}
    (hroot : rootKeyLine l = true) (hhead : headerLine secName l = false) :
    flagStep secName st l = false := by
  rw [flagStep, if_neg (by simp [hhead])]
  cases st
  · rw [if_neg (by simp)]
  · rw [if_pos (by simp [hroot])]

theorem take_succ_getD' {α : Type} (l : List α) (d : α) (n : Nat)
    (h : n < l.length) : l.take (n + 1) = l.take n ++ [l.getD n d] := by
  rw [List.take_succ, List.getElem?_eq_getElem h]
  simp [List.getD_eq_getElem?_getD, List.getElem?_eq_getElem h]

/-- A two-space entry below a section header with no intervening root-level
key is recorded in the symbol set. -/
theorem collectSection_mem_of (secName : List Char)
    (entry : List Char → Option String) (lines : List (List Char)) (i k : Nat)
    (name : String) (hik : i < k) (hk : k < lines.length)
    (hheader : headerLine secName (lines.getD i []) = true)
    (hmid : ∀ j, i < j → j < k → rootKeyLine (lines.getD j []) = false)
    (hentry : entry (lines.getD k []) = some name)
    (hkh : headerLine secName (lines.getD k []) = false)
    (hkr : rootKeyLine (lines.getD k []) = false) :
    name ∈ collectSection secName entry lines := by
  have hflag : sectionFlagBefore secName entry lines k = true := by
    rw [sectionFlagBefore, foldl_scanStep_fst]
    have hsplit : lines.take k =
        lines.take (i + 1) ++ (lines.drop (i + 1)).take (k - (i + 1)) := by
      rw [← List.take_add]
      congr 1
      omega
    rw [hsplit, List.foldl_append]
    rw [take_succ_getD' lines [] i (by omega), List.foldl_append,
      List.foldl_cons, List.foldl_nil]
    rw [show flagStep secName ((lines.take i).foldl (flagStep secName) false)
        (lines.getD i []) = true by rw [flagStep, if_pos hheader]]
    apply flag_stays_true
    intro l' hl'
    rw [List.mem_iff_getElem] at hl'
    obtain ⟨t, ht, hl⟩ := hl'
    have ht2 : t < k - (i + 1) := by
      have := ht
      simp only [List.length_take, List.length_drop, lt_min_iff] at this
      omega
    have hl' : l' = lines.getD (i + 1 + t) [] := by
      rw [← hl, List.getElem_take, List.getElem_drop]
      rw [List.getD_eq_getElem lines [] (by omega)]
    rw [hl']
    exact hmid (i + 1 + t) (by omega) (by omega)
  rw [collectSection]
  rw [show lines = lines.take (k + 1) ++ lines.drop (k + 1) from
    (List.take_append_drop _ _).symm]
  rw [List.foldl_append]
  apply scan_acc_mono
  rw [take_succ_getD' lines [] k hk, List.foldl_append, List.foldl_cons,
    List.foldl_nil]
  rw [sectionFlagBefore] at hflag
  rw [scanStep, if_neg (by rw [hkh]; simp), if_neg (by rw [hkr]; simp),
    if_pos hflag, hentry]
  exact mem_addSet_self _ _

/-- A line that matches the two-space entry shape starts with whitespace, so
it is neither the `lists:` header nor a root-level key. -/
theorem entryNameStrict_not_header_not_root {l : List Char} {n : String}
    (h : entryNameStrict l = some n) :
    headerLine "lists".data l = false ∧ rootKeyLine l = false := by
  cases l with
  | nil => simp [entryNameStrict] at h
  | cons c1 t =>
    cases t with
    | nil => simp [entryNameStrict] at h
    | cons c2 rest =>
      rw [entryNameStrict] at h
      split at h
      case isTrue hws =>
        rw [Bool.and_eq_true] at hws
        constructor
        · rw [headerLine]
          cases hb : (((c1 :: c2 :: rest).take ("lists".data.length + 1)) ==
              "lists".data ++ [Char.ofNat 58])
          · rfl
          · exfalso
            have heq := eq_of_beq hb
            rw [show ("lists".data.length + 1) = 6 from rfl] at heq
            have hc1 : c1 = Char.ofNat 108 := by
              have := congrArg (fun x => x.headD (Char.ofNat 0)) heq
              simpa using this
            rw [hc1] at hws
            exact absurd hws.1 (by decide)
        · rw [rootKeyLine]
          have hlu : isLowerUnd c1 = false := by
            have hw := hws.1
            simp only [isWS, Bool.or_eq_true, beq_iff_eq] at hw
            cases hval : isLowerUnd c1
            · rfl
            · exfalso
              simp only [isLowerUnd, isLowerAZ, Bool.or_eq_true,
                Bool.and_eq_true, decide_eq_true_eq, beq_iff_eq] at hval
              omega
          rw [List.takeWhile_cons, if_neg (by simp [hlu])]
          simp
      case isFalse => cases h

theorem containsSub_append_left :
    ∀ (a rest pat : List Char), pat.isPrefixOf rest = true →
      containsSub (a ++ rest) pat = true := by
  intro a
  induction a with
  | nil =>
    intro rest pat h
    rw [List.nil_append, containsSub]
    cases rest with
    | nil =>
      have : pat = [] := by
        cases pat
        · rfl
        · cases h
      rw [this]
      rfl
    | cons c t =>
      rw [subIndexAux, if_pos h]
      rfl
  | cons c a' ih =>
    intro rest pat h
    rw [List.cons_append, containsSub, subIndexAux]
    by_cases hp : pat.isPrefixOf (c :: (a' ++ rest)) = true
    · rw [if_pos hp]
      rfl
    · rw [if_neg hp]
      have hrec := ih rest pat h
      rw [containsSub] at hrec
      -- the starting offset does not affect whether an index is found
      have hoff : ∀ (l : List Char) (pat : List Char) (i j : Nat),
          (subIndexAux pat l i).isSome = (subIndexAux pat l j).isSome := by
        intro l
        induction l with
        | nil =>
          intro pat i j
          rw [subIndexAux, subIndexAux]
          cases pat.isEmpty <;> simp
        | cons x xs ihx =>
          intro pat i j
          rw [subIndexAux, subIndexAux]
          by_cases hx : pat.isPrefixOf (x :: xs) = true
          · rw [if_pos hx, if_pos hx]
            rfl
          · rw [if_neg hx, if_neg hx]
            exact ihx pat (i + 1) (j + 1)
      rw [hoff (a' ++ rest) pat 1 0]
      exact hrec

/-- A string embedded between two others occurs as a substring. -/
theorem containsSub_of_embedded (full : String) (a rest : List Char)
    (name : String) (hdata : full.data = a ++ (name.data ++ rest)) :
    containsSub full.data name.data = true := by
  rw [hdata]
  apply containsSub_append_left
  rw [List.isPrefixOf_iff_prefix]
  exact List.prefix_append _ _

/-- C5 (confirmed): a two-space `my_list:` entry under a root `lists:`
section (with no other root key in between) lands in the list-symbol set; a
`call_action_list`/`run_action_list` reference to a defined list produces no
undefined-list finding; a reference to a name neither defined nor in the
shared allow-list produces exactly one error finding naming it; and the
specification's concrete round-trip document behaves accordingly. -/
theorem C5_list_roundtrip :
    (∀ (lines : List (List Char)) (i k : Nat) (name : String),
      i < k → k < lines.length →
      headerLine "lists".data (lines.getD i []) = true →
      (∀ j, i < j → j < k → rootKeyLine (lines.getD j []) = false) →
      entryNameStrict (lines.getD k []) = some name →
      name ∈ collectDefinedLists lines) ∧
    (∀ (text content : List Char) (n : Nat) (L : List String) (name : String),
      listNameOf content = some name → L.contains name = true →
      listRefFindings text content n L = []) ∧
    (∀ (text content : List Char) (n : Nat) (L : List String) (name : String),
      listNameOf content = some name → L.contains name = false →
      sharedLists.contains name = false →
      ∃ d, listRefFindings text content n L = [d] ∧
        d.severity = Severity.error ∧
        containsSub d.message.data name.data = true) ∧
    (updateDiagnostics initialDB
        ["lists:", "  my_list:", "actions:",
         "  - call_action_list,name=my_list"] = [] ∧
     updateDiagnostics initialDB
        ["lists:", "  my_list:", "actions:",
         "  - call_action_list,name=not_declared"] =
       [⟨3, 26, 38,
         "Action list \"not_declared\" is not defined. Available lists: my_list",
         Severity.error⟩]) := by
  refine ⟨?_, ?_, ?_, by decide, by decide⟩
  · intro lines i k name hik hk hheader hmid hentry
    rw [collectDefinedLists]
    exact collectSection_mem_of "lists".data entryNameStrict lines i k name hik
      hk hheader hmid hentry (entryNameStrict_not_header_not_root hentry).1
      (entryNameStrict_not_header_not_root hentry).2
  · intro text content n L name h hm
    have hm' : name ∈ L := by simpa using hm
    rw [listRefFindings, h]
    dsimp only
    rw [if_neg (by simp [hm'])]
  · intro text content n L name h hm hs
    have hm' : name ∉ L := by simpa using hm
    have hs' : name ∉ sharedLists := by simpa using hs
    rw [listRefFindings, h]
    dsimp only
    rw [if_pos (by simp [hm', hs'])]
    refine ⟨_, rfl, rfl, ?_⟩
    apply containsSub_of_embedded _ "Action list \"".data
      (("\" is not defined" : String).data ++
        (if L.length > 0 then
          ". Available lists: " ++ String.intercalate ", " L
         else "" : String).data) name
    simp only [String.data_append, List.append_assoc]

/-- Witness for C5 at the specification's round-trip document. -/
theorem C5_list_roundtrip_witness :
    "my_list" ∈ collectDefinedLists
      (["lists:", "  my_list:", "actions:",
        "  - call_action_list,name=my_list"].map String.data) ∧
    listRefFindings "  - call_action_list,name=my_list".data
      "call_action_list,name=my_list".data 3 ["my_list"] = [] ∧
    (∃ d, listRefFindings "  - call_action_list,name=not_declared".data
        "call_action_list,name=not_declared".data 3 ["my_list"] = [d] ∧
      d.severity = Severity.error ∧
      containsSub d.message.data "not_declared".data = true) := by
  refine ⟨?_, ?_, ?_⟩
  · exact C5_list_roundtrip.1
      (["lists:", "  my_list:", "actions:",
        "  - call_action_list,name=my_list"].map String.data) 0 1 "my_list"
      (by decide) (by decide) (by decide)
      (fun j hj1 hj2 => by omega) (by decide)
  · exact C5_list_roundtrip.2.1 _ _ 3 ["my_list"] "my_list" (by decide)
      (by decide)
  · exact C5_list_roundtrip.2.2.1 _ _ 3 ["my_list"] "not_declared" (by decide)
      (by decide) (by decide)

/-! ## C8: leaving a section on another root-level key -/

/-- Counterexample for C8 as frozen: after entering `lists:`, the root-level
key `other:` ends the section, yet the two-space entry `  b:` appearing
after it *is* added to the set, because a second `lists:` header re-enters
the section in between. -/
theorem C8_section_exit_counterexample :
    rootKeyLine "other:".data = true ∧
    headerLine "lists".data "other:".data = false ∧
    "b" ∈ collectDefinedLists
      (["lists:", "other:", "lists:", "  b:"].map String.data) := by
  refine ⟨by decide, by decide, by decide⟩

/-- C8 (corrected): after the scanner enters a section, a later root-level
key line other than the section's own header ends the section, and while the
header does not reappear the scanner stays out of the section, so a
two-space entry line there contributes nothing to the symbol set; a
reappearing header line re-enters the section. -/
theorem C8_section_exit_amended :
    ∀ (secName : List Char) (entry : List Char → Option String)
      (lines : List (List Char)) (j k : Nat) (acc : List String),
      j < k →
      rootKeyLine (lines.getD j []) = true →
      headerLine secName (lines.getD j []) = false →
      (∀ m, j < m → m < k → headerLine secName (lines.getD m []) = false) →
      sectionFlagBefore secName entry lines k = false ∧
      (scanStep secName entry (false, acc) (lines.getD k [])).2 = acc := by
  intro secName entry lines j k acc hjk hroot hhead hmid
  have hj : j < lines.length := by
    by_contra hcon
    rw [List.getD_eq_default lines [] (by omega)] at hroot
    exact absurd hroot (by decide)
  constructor
  · rw [sectionFlagBefore, foldl_scanStep_fst]
    rw [show lines.take k =
        lines.take (j + 1) ++ (lines.drop (j + 1)).take (k - (j + 1)) from by
      rw [← List.take_add]
      congr 1
      omega]
    rw [List.foldl_append]
    rw [take_succ_getD' lines [] j hj, List.foldl_append, List.foldl_cons,
      List.foldl_nil]
    rw [flagStep_exit secName _ hroot hhead]
    apply flag_stays_false
    intro l' hl'
    rw [List.mem_iff_getElem] at hl'
    obtain ⟨t, ht, hl⟩ := hl'
    have ht2 : t < k - (j + 1) ∧ j + 1 + t < lines.length := by
      simp only [List.length_take, List.length_drop, lt_min_iff] at ht
      omega
    have hl'' : l' = lines.getD (j + 1 + t) [] := by
      rw [← hl, List.getElem_take, List.getElem_drop]
      rw [List.getD_eq_getElem lines [] (by omega)]
    rw [hl'']
    exact hmid (j + 1 + t) (by omega) (by omega)
  · rw [scanStep]
    by_cases h1 : headerLine secName (lines.getD k []) = true
    · rw [if_pos h1]
    · rw [if_neg h1, if_neg (by simp), if_neg (by simp)]

/-- Witness for C8: on a concrete document, after the exit line `other:` the
flag is down at the entry line `  b:` and scanning it leaves the set
unchanged. -/
theorem C8_section_exit_amended_witness :
    sectionFlagBefore "lists".data entryNameStrict
      (["lists:", "  a:", "other:", "  b:"].map String.data) 3 = false ∧
    (scanStep "lists".data entryNameStrict (false, ["a"])
      ((["lists:", "  a:", "other:", "  b:"].map String.data).getD 3 [])).2 =
      ["a"] :=
  C8_section_exit_amended "lists".data entryNameStrict
    (["lists:", "  a:", "other:", "  b:"].map String.data) 2 3 ["a"]
    (by decide) (by decide) (by decide) (fun m h1 h2 => by omega)

/-! ## C10: ordering of the findings sequence -/

/-- The ordering the claim asserts: line-then-column. -/
def orderedLineCol (l : List Diagnostic) : Prop :=
  l.Pairwise (fun a b => a.line < b.line ∨ (a.line = b.line ∧
    a.colStart ≤ b.colStart))

theorem mem_iteSingle {c : Prop} [Decidable c] {d x : Diagnostic}
    (h : d ∈ (if c then [x] else [])) : d = x := by
  split at h
  · simpa using h
  · cases h

theorem listRefFindings_line {text content : List Char} {n : Nat}
    {L : List String} {d : Diagnostic} (h : d ∈ listRefFindings text content n L) :
    d.line = n := by
  rw [listRefFindings] at h
  split at h
  · cases h
  · split at h
    · simp only [List.mem_singleton] at h
      rw [h]
    · cases h

theorem validateActionLine_line {text : List Char} {n : Nat} {L : List String}
    {d : Diagnostic} (h : d ∈ validateActionLine text n L) : d.line = n := by
  rw [validateActionLine] at h
  split at h
  · cases h
  · simp only [List.mem_append] at h
    rcases h with (((((((((h | h) | h) | h) | h) | h) | h) | h) | h) | h) | h
    · rw [mem_iteSingle h]
    · rw [mem_iteSingle h]
    · split at h
      · simp only [List.mem_singleton] at h
        rw [h]
      · cases h
    · rw [mem_iteSingle h]
    · rw [mem_iteSingle h]
    · rw [mem_iteSingle h]
    · rw [mem_iteSingle h]
    · rw [mem_iteSingle h]
    · rw [mem_iteSingle h]
    · split at h
      · rw [mem_iteSingle h]
      · cases h
    · exact listRefFindings_line h

theorem exprFinding_line {db : SpellDB} {n : Nat} {ty : String}
    {m : Nat × List Char × String} {d : Diagnostic}
    (h : exprFinding db n ty m = some d) : d.line = n := by
  rw [exprFinding] at h
  dsimp only at h
  split at h
  · cases h
  · split at h
    · cases h
    · split at h
      · cases h
      · injection h with h
        rw [← h]

theorem actionSpellFindings_line {db : SpellDB} {text : List Char} {n : Nat}
    {d : Diagnostic} (h : d ∈ actionSpellFindings db text n) : d.line = n := by
  rw [actionSpellFindings] at h
  split at h
  · cases h
  · split at h
    · cases h
    · split at h
      · cases h
      · split at h
        · cases h
        · simp only [List.mem_singleton] at h
          rw [h]

theorem validateSpellNames_line {db : SpellDB} {text : List Char} {n : Nat}
    {d : Diagnostic} (h : d ∈ validateSpellNames db text n) : d.line = n := by
  rw [validateSpellNames] at h
  split at h
  · cases h
  · rw [List.mem_append] at h
    rcases h with h | h
    · exact actionSpellFindings_line h
    · rw [List.mem_flatten] at h
      obtain ⟨l, hl, hdl⟩ := h
      rw [List.mem_map] at hl
      obtain ⟨pt, -, hpt⟩ := hl
      rw [← hpt] at hdl
      rw [List.mem_filterMap] at hdl
      obtain ⟨m, -, hm⟩ := hdl
      exact exprFinding_line hm

theorem configRefFinding_line {n : Nat} {cs : List String} {m : Nat × String}
    {d : Diagnostic} (h : configRefFinding n cs m = some d) : d.line = n := by
  rw [configRefFinding] at h
  dsimp only at h
  split at h
  · injection h with h
    rw [← h]
  · cases h

theorem varRefFinding_line {n : Nat} {vs : List String} {m : Nat × String}
    {d : Diagnostic} (h : varRefFinding n vs m = some d) : d.line = n := by
  rw [varRefFinding] at h
  dsimp only at h
  split at h
  · injection h with h
    rw [← h]
  · cases h

theorem validateConfigAndVar_line {text : List Char} {n : Nat}
    {cs vs : List String} {d : Diagnostic}
    (h : d ∈ validateConfigAndVarReferences text n cs vs) : d.line = n := by
  rw [validateConfigAndVarReferences, List.mem_append] at h
  rcases h with h | h <;>
    · rw [List.mem_filterMap] at h
      obtain ⟨m, -, hm⟩ := h
      first
        | exact configRefFinding_line hm
        | exact varRefFinding_line hm

theorem checkCommonTypos_line {text : List Char} {n : Nat} {d : Diagnostic}
    (h : d ∈ checkCommonTypos text n) : d.line = n := by
  rw [checkCommonTypos] at h
  simp only [List.mem_append] at h
  rcases h with (h | h) | h
  · rw [List.mem_flatten] at h
    obtain ⟨l, hl, hdl⟩ := h
    rw [List.mem_map] at hl
    obtain ⟨tp, -, htp⟩ := hl
    rw [← htp, List.mem_map] at hdl
    obtain ⟨m, -, hm⟩ := hdl
    rw [← hm]
  · rw [List.mem_map] at h
    obtain ⟨m, -, hm⟩ := h
    rw [← hm]
  · rw [List.mem_flatten] at h
    obtain ⟨l, hl, hdl⟩ := h
    rw [List.mem_map] at hl
    obtain ⟨tp, -, htp⟩ := hl
    rw [← htp, List.mem_map] at hdl
    obtain ⟨m, -, hm⟩ := hdl
    rw [← hm]

theorem lineDiagnostics_line {db : SpellDB} {Ls Cs Vs : List String}
    {text : List Char} {n : Nat} {d : Diagnostic}
    (h : d ∈ lineDiagnostics db Ls Cs Vs text n) : d.line = n := by
  rw [lineDiagnostics] at h
  split at h
  · cases h
  · simp only [List.mem_append] at h
    rcases h with ((h | h) | h) | h
    · split at h
      · exact validateActionLine_line h
      · cases h
    · exact validateSpellNames_line h
    · exact validateConfigAndVar_line h
    · exact checkCommonTypos_line h

/-- Counterexample for C10 as frozen: on the line `  - a&,if=` the empty-if
error (column 6) is emitted before the trailing-operator warning (column 0),
violating column order within the line. -/
theorem C10_order_counterexample :
    ¬ orderedLineCol (updateDiagnostics initialDB ["  - a&,if="]) := by
  rw [orderedLineCol,
    show updateDiagnostics initialDB ["  - a&,if="] =
      [⟨0, 6, 10, "Empty condition after if=", Severity.error⟩,
       ⟨0, 0, 10, "Condition ends with an operator", Severity.warning⟩]
    from by decide]
  intro h
  rcases List.pairwise_cons.mp h with ⟨h1, -⟩
  have h2 := h1 ⟨0, 0, 10, "Condition ends with an operator",
    Severity.warning⟩ (by simp)
  rcases h2 with h2 | h2
  · exact absurd h2 (by decide)
  · exact absurd h2.2 (by decide)

/-- C10 (corrected): the findings of one validation pass are ordered by line
number (each line's findings are contiguous and lines are scanned top to
bottom), but within a line the findings follow check order, not column
order. -/
theorem C10_line_order_amended :
    ∀ (db : SpellDB) (docLines : List String),
      (updateDiagnostics db docLines).Pairwise (fun a b => a.line ≤ b.line) := by
  intro db docLines
  rw [updateDiagnostics]
  rw [List.pairwise_flatten]
  constructor
  · intro l hl
    rw [List.mem_map] at hl
    obtain ⟨i, -, hi⟩ := hl
    apply List.pairwise_of_forall_mem_list
    intro a ha b hb
    rw [← hi] at ha hb
    rw [lineDiagnostics_line ha, lineDiagnostics_line hb]
  · rw [List.pairwise_map]
    apply List.Pairwise.imp ?_ (List.pairwise_lt_range docLines.length)
    intro i j hij
    intro x hx y hy
    rw [lineDiagnostics_line hx, lineDiagnostics_line hy]
    omega
